import Mathlib

/-!
# Verification of the nix-file parser/updater core

Shallow embedding of `src/nix-file-parser.ts` (the field extractor, identifier
validators, variant detector and file updater) over `List Char`, together with
proofs settling the frozen claims about this component.

The JavaScript regular expressions used by the source are all of one restricted
shape, so they are embedded as deterministic scanners with ECMAScript
leftmost-match semantics:

* field patterns `\bNAME\s*=\s*"([^"]+)"` (and the two-way alternation
  `\b(hash|sha256)\s*=\s*"([^"]+)"`),
* the update replacements `(\bNAME\s*=\s*)"[^"]+"` with replacement template
  `$1"<new>"` including ECMAScript `$`-substitution in the replacement string,
* the multiline vendor-hash detector `/^[^#\n]*\bvendorHash\s*=/m`,
* the anchored validator patterns for GitHub owner and repository names.
-/

namespace NixUpdater

/-- ECMAScript word character (`\w` = `[A-Za-z0-9_]`), used for `\b` boundaries. -/
def wordChar (c : Char) : Bool :=
  ('a' ≤ c && c ≤ 'z') || ('A' ≤ c && c ≤ 'Z') || ('0' ≤ c && c ≤ '9') || c = '_'

/-- ECMAScript whitespace (`\s`): ASCII whitespace plus the Unicode space
characters matched by JavaScript regular expressions. -/
def wsChar (c : Char) : Bool :=
  c = ' ' || c = '\t' || c = '\n' || c = '\x0b' || c = '\x0c' || c = '\r' ||
  c.val = 0xa0 || c.val = 0x1680 || (0x2000 ≤ c.val && c.val ≤ 0x200a) ||
  c.val = 0x2028 || c.val = 0x2029 || c.val = 0x202f || c.val = 0x205f ||
  c.val = 0x3000 || c.val = 0xfeff

/-- The field names used by `PATTERNS` and the update replacements. -/
def ownerName : List Char := "owner".toList

def repoName : List Char := "repo".toList

def versionName : List Char := "version".toList

def revName : List Char := "rev".toList

def hashName : List Char := "hash".toList

def sha256Name : List Char := "sha256".toList

def vendorHashName : List Char := "vendorHash".toList

/-- Strip a literal name from the front of the text (`none` if it is not there). -/
def stripName : List Char → List Char → Option (List Char)
  | [], s => some s
  | _ :: _, [] => none
  | a :: as, c :: cs => if a = c then stripName as cs else none

/-- Demand a literal character at the head of the text. -/
def expectChar (c : Char) : List Char → Option (List Char)
  | [] => none
  | a :: as => if a = c then some as else none

/-- Parse `\s*=\s*"([^"]+)"` (the part of a field pattern after the name):
returns the two whitespace runs, the captured value and the remainder.  The
greedy `\s*` runs and the greedy `[^"]+` are deterministic here because `=`
and `"` are not whitespace resp. not value characters. -/
def matchAfterName (s1 : List Char) : Option (List Char × List Char × List Char × List Char) := do
  let s3 ← expectChar '=' (s1.dropWhile wsChar)
  let s5 ← expectChar '"' (s3.dropWhile wsChar)
  let v := s5.takeWhile (fun c => !(c = '"'))
  let r ← expectChar '"' (s5.dropWhile (fun c => !(c = '"')))
  if v.isEmpty then none else pure (s1.takeWhile wsChar, s3.takeWhile wsChar, v, r)

/-- Attempt of the pattern `NAME\s*=\s*"([^"]+)"` at the start of `s`, for the
first NAME of `names` whose literal is present (the ECMAScript alternation
tries alternatives left to right at each position).  On success returns
`(g, v, r)` with `s = g ++ '"'::v ++ '"'::r`, where `g` covers
`NAME\s*=\s*` and `v` is the quoted value (nonempty, quote-free). -/
def matchAt : List (List Char) → List Char → Option (List Char × List Char × List Char)
  | [], _ => none
  | name :: names, s =>
    match stripName name s with
    | none => matchAt names s
    | some s1 =>
      match matchAfterName s1 with
      | some (w1, w2, v, r) => some (name ++ w1 ++ '=' :: w2, v, r)
      | none => matchAt names s

/-- Leftmost-match scan for `\bNAME\s*=\s*"([^"]+)"` over the text, with the
alternation `names`.  `pw` records whether the character just before the
current position is a word character (the `\b` assertion, given that every
NAME starts with a word character, holds exactly when it is not).  On success
returns `(p, g, v, r)` with the text equal to `p ++ g ++ '"'::v ++ '"'::r`. -/
def findAssign : List (List Char) → Bool → List Char →
    Option (List Char × List Char × List Char × List Char)
  | _, _, [] => none
  | names, pw, c :: cs =>
    match (if pw then none else matchAt names (c :: cs)) with
    | some (g, v, r) => some ([], g, v, r)
    | none =>
      match findAssign names (wordChar c) cs with
      | some (p, g, v, r) => some (c :: p, g, v, r)
      | none => none

/-- ECMAScript `GetSubstitution` for a replacement string against a match with
one capture group: `$$`, `$&`, `` $` ``, `$'` and `$1` are interpreted, any
other `$`-sequence is literal (`$2`‥`$9` name no existing group here, and the
patterns contain no named groups). -/
def expandDollar (whole g1 pre post : List Char) : List Char → List Char
  | [] => []
  | c :: rest =>
    if c = '$' then
      match rest with
      | [] => ['$']
      | d :: rest' =>
        if d = '$' then '$' :: expandDollar whole g1 pre post rest'
        else if d = '&' then whole ++ expandDollar whole g1 pre post rest'
        else if d = '\x60' then pre ++ expandDollar whole g1 pre post rest'
        else if d = '\'' then post ++ expandDollar whole g1 pre post rest'
        else if d = '1' then g1 ++ expandDollar whole g1 pre post rest'
        else '$' :: expandDollar whole g1 pre post (d :: rest')
    else c :: expandDollar whole g1 pre post rest

/-- `text.replace(/(\bNAME\s*=\s*)"[^"]+"/, `$1"<newval>"`)`: replace the
leftmost match, feeding the template `$1"` ++ newval ++ `"` through
ECMAScript `$`-substitution (group 1 is the `NAME\s*=\s*` part). -/
def replaceField (names : List (List Char)) (newval s : List Char) : List Char :=
  match findAssign names false s with
  | none => s
  | some (p, g, v, r) =>
    p ++ expandDollar (g ++ '"' :: v ++ ['"']) g p r ('$' :: '1' :: '"' :: (newval ++ ['"'])) ++ r

/-- The update-time presence test `/\bhash\s*=\s*"[^"]+"/.test(text)`. -/
def hashTest (s : List Char) : Bool :=
  (findAssign [hashName] false s).isSome

/-- Does `vendorHash\s*=` start here?  (`\s*` may cross line breaks.) -/
def vendorAssignAt (s : List Char) : Bool :=
  match stripName vendorHashName s with
  | none => false
  | some s1 =>
    match s1.dropWhile wsChar with
    | '=' :: _ => true
    | _ => false

/-- Scan for `/^[^#\n]*\bvendorHash\s*=/m`: a position starts a match when no
`#` (and no line break) lies between the enclosing line start and it, and the
`\b` boundary holds there.  `lineOK` tracks absence of `#` since the last line
start, `pw` the word-character status of the previous character. -/
def vendorScan : Bool → Bool → List Char → Bool
  | _, _, [] => false
  | lineOK, pw, c :: cs =>
    (lineOK && !pw && vendorAssignAt (c :: cs)) ||
    vendorScan (if c = '\n' then true else if c = '#' then false else lineOK) (wordChar c) cs

/-- `PATTERNS.vendorHash.test(content)`. -/
def vendorHashTest (s : List Char) : Bool :=
  vendorScan true false s

/-- Does the whole text spell `NAME\s*=\s*` (a field-assignment stub)? -/
def assignTailAt (n w : List Char) : Bool :=
  match stripName n w with
  | none => false
  | some w1 =>
    match w1.dropWhile wsChar with
    | '=' :: w2 => w2.all wsChar
    | _ => false

/-- Does some suffix of the text spell `NAME\s*=\s*`?  A value ending in such a
stub could, once placed before a closing quote, complete a spurious field
match. -/
def hasAssignTail (n : List Char) : List Char → Bool
  | [] => false
  | c :: rest => assignTailAt n (c :: rest) || hasAssignTail n rest

/-- `value.includes(pat)` (substring test). -/
def includesSub : List Char → List Char → Bool
  | s, pat =>
    if pat.isPrefixOf s then true
    else match s with
      | [] => false
      | _ :: cs => includesSub cs pat

/-- Alphanumeric ASCII character (`[a-zA-Z0-9]`). -/
def alnumChar (c : Char) : Bool :=
  ('a' ≤ c && c ≤ 'z') || ('A' ≤ c && c ≤ 'Z') || ('0' ≤ c && c ≤ '9')

/-- `/^[a-zA-Z0-9](?:[a-zA-Z0-9-]{0,37}[a-zA-Z0-9])?$/.test(owner)`: the first
character is alphanumeric, and either nothing follows, or the rest is at most
38 characters of which all but the last are alphanumeric-or-hyphen and the
last is alphanumeric (the anchored optional group, unfolded). -/
def ownerPatternTest (s : List Char) : Bool :=
  match s with
  | [] => false
  | c :: rest =>
    alnumChar c &&
      (rest.isEmpty ||
        (decide (rest.length ≤ 38) &&
          rest.dropLast.all (fun d => alnumChar d || d = '-') &&
          (match rest.getLast? with
           | some d => alnumChar d
           | none => false)))

/-- `/^[a-zA-Z0-9._-]+$/.test(repo)`. -/
def repoPatternTest (s : List Char) : Bool :=
  !s.isEmpty && s.all (fun c => alnumChar c || c = '.' || c = '_' || c = '-')

/-- `repo.endsWith('.git')`. -/
def endsWithDotGit (s : List Char) : Bool :=
  ".git".toList.isSuffixOf s

/-- Error message of `validateGitHubOwner`. -/
def invalidOwnerMsg (owner : List Char) : List Char :=
  "Invalid GitHub owner format: \"".toList ++ owner ++
    "\". Must be 1-39 alphanumeric characters or hyphens, cannot start/end with hyphen.".toList

/-- Error message of `validateGitHubRepo`. -/
def invalidRepoMsg (repo : List Char) : List Char :=
  "Invalid GitHub repository format: \"".toList ++ repo ++
    "\". Must contain only alphanumeric characters, hyphens, underscores, or periods. Cannot end with .git.".toList

/-- `validateGitHubOwner` as a checked computation (the source throws). -/
def validateGitHubOwner (owner : List Char) : Except (List Char) Unit :=
  if ownerPatternTest owner then .ok () else .error (invalidOwnerMsg owner)

/-- `validateGitHubRepo`: rejects when the character-class test fails, the name
ends in `.git`, or it is longer than 100 characters. -/
def validateGitHubRepo (repo : List Char) : Except (List Char) Unit :=
  if !repoPatternTest repo || endsWithDotGit repo || decide (100 < repo.length) then
    .error (invalidRepoMsg repo)
  else .ok ()

/-- Error message of `extractValue`. -/
def couldNotFindMsg (name : List Char) : List Char :=
  "Could not find ".toList ++ name ++ " in Nix file".toList

/-- `extractValue(content, pattern, name)`: the captured value of the leftmost
match, or the missing-field error. -/
def extractValue (content : List Char) (names : List (List Char)) (errName : List Char) :
    Except (List Char) (List Char) :=
  match findAssign names false content with
  | some (_, _, v, _) => .ok v
  | none => .error (couldNotFindMsg errName)

/-- The parse result record (`NixFileData` in `types.ts`). -/
structure NixFileData where
  owner : List Char
  repo : List Char
  version : List Char
  rev : List Char
  hash : List Char
  revUsesVersion : Bool
  hasVendorHash : Bool
deriving DecidableEq, Repr

/-- `parseNixFile`: extraction order is owner, repo, validation of both, rev,
then (in the record literal) version and the hash/sha256 alias; `rev` also
feeds the `${version}`-interpolation flag, and the raw text the vendor-hash
flag. -/
def parseNixFile (content : List Char) : Except (List Char) NixFileData :=
  match extractValue content [ownerName] ownerName with
  | .error e => .error e
  | .ok owner =>
    match extractValue content [repoName] repoName with
    | .error e => .error e
    | .ok repo =>
      match validateGitHubOwner owner with
      | .error e => .error e
      | .ok () =>
        match validateGitHubRepo repo with
        | .error e => .error e
        | .ok () =>
          match extractValue content [revName] revName with
          | .error e => .error e
          | .ok rev =>
            let revUsesVersion := includesSub rev "${version}".toList
            let hasVendorHash := vendorHashTest content
            match extractValue content [versionName] versionName with
            | .error e => .error e
            | .ok version =>
              match extractValue content [hashName, sha256Name] "hash or sha256".toList with
              | .error e => .error e
              | .ok hash =>
                .ok ⟨owner, repo, version, rev, hash, revUsesVersion, hasVendorHash⟩

/-- `NixUpdateData` in `types.ts`. -/
structure NixUpdateData where
  version : List Char
  rev : List Char
  hash : List Char

/-- `UpdateOptions`: the optional `skipRevUpdate` flag (absent ≠ `true`). -/
structure UpdateOptions where
  skipRevUpdate : Option Bool := none

/-- `updateNixFile`: replace the version value, then (unless
`skipRevUpdate === true`) the rev value, then the hash value — choosing the
`hash` field if `/\bhash\s*=\s*"[^"]+"/` matches the current text and falling
back to `sha256` otherwise. -/
def updateNixFile (content : List Char) (updates : NixUpdateData)
    (options : UpdateOptions := {}) : List Char :=
  let u1 := replaceField [versionName] updates.version content
  let u2 := if options.skipRevUpdate = some true then u1
    else replaceField [revName] updates.rev u1
  if hashTest u2 then replaceField [hashName] updates.hash u2
  else replaceField [sha256Name] updates.hash u2

/-- The characters of the enclosing line of a position: the suffix of the
text before it that follows the last line break. -/
def lastLine : List Char → List Char
  | [] => []
  | c :: cs => if '\n' ∈ cs then lastLine cs else if c = '\n' then cs else c :: cs

/-- The comment state of `vendorScan` after reading a prefix: starts from
`ok`, resets to `true` at each line break, drops to `false` at `#`. -/
def lineClear : Bool → List Char → Bool
  | ok, [] => ok
  | ok, c :: cs => lineClear (if c = '\n' then true else if c = '#' then false else ok) cs

/-! ## Match decompositions

A match of `\bNAME\s*=\s*"([^"]+)"` is described by a four-way decomposition
of the text: the prefix before the match, the `NAME\s*=\s*` part, the quoted
value and the remainder after the closing quote. -/

/-- Every character is ECMAScript whitespace. -/
def WsOnly (l : List Char) : Prop := ∀ c ∈ l, wsChar c = true

/-- No double quote occurs. -/
def QuoteFree (l : List Char) : Prop := '"' ∉ l

/-- `g` spells `NAME\s*=\s*` for the given name. -/
def Shape (name g : List Char) : Prop :=
  ∃ w1 w2, g = name ++ w1 ++ '=' :: w2 ∧ WsOnly w1 ∧ WsOnly w2

/-- `g` spells `NAME\s*=\s*` for one of the alternation's names. -/
def ShapeAny (names : List (List Char)) (g : List Char) : Prop :=
  ∃ n ∈ names, Shape n g

/-- The `\b` assertion before the name: the character just before the match
(the last of the prefix, or the scan-entry state `pw` for an empty prefix) is
not a word character. -/
def BoundaryOK (pw : Bool) (p : List Char) : Prop :=
  match p.getLast? with
  | none => pw = false
  | some c => wordChar c = false

/-- A decomposed occurrence of the field pattern in `s`, the text before it
being `p`. -/
def IsMatchFrom (names : List (List Char)) (pw : Bool) (s p g v r : List Char) : Prop :=
  s = p ++ g ++ ('"' :: v) ++ ('"' :: r) ∧ ShapeAny names g ∧ v ≠ [] ∧ QuoteFree v ∧
    BoundaryOK pw p

/-- Well-formedness of a pattern name: nonempty and made of word characters
(in particular free of the pattern's structural characters). -/
def NameOK (n : List Char) : Prop :=
  n ≠ [] ∧ ∀ c ∈ n, wordChar c = true ∧ wsChar c = false ∧ c ≠ '"' ∧ c ≠ '='

/-- All names of an alternation are well-formed. -/
def NamesOK (names : List (List Char)) : Prop := ∀ n ∈ names, NameOK n

/-- No name of the alternation is a proper prefix of another (this holds for
every alternation the source uses, including `hash`/`sha256`). -/
def NamesSep (names : List (List Char)) : Prop :=
  ∀ m ∈ names, ∀ n ∈ names, m.isPrefixOf n → m = n

/-- The starting positions (as prefix lengths) of all pattern matches in the
text, in increasing order. -/
def matchPositions (names : List (List Char)) : Bool → List Char → List Nat
  | _, [] => []
  | pw, c :: cs =>
    (if !pw && (matchAt names (c :: cs)).isSome then [0] else []) ++
      (matchPositions names (wordChar c) cs).map (· + 1)

/-- The designated match of the alternation in the text, known to be the only
one (all matches share its starting position). -/
def UniqueMatch (names : List (List Char)) (t p g v r : List Char) : Prop :=
  IsMatchFrom names false t p g v r ∧
    ∀ p' g' v' r', IsMatchFrom names false t p' g' v' r' → p'.length = p.length

/-- All field names the parser and updater ever look for. -/
def fieldNames : List (List Char) :=
  [ownerName, repoName, versionName, revName, hashName, sha256Name]

/-- A replacement value that cannot disturb surrounding matches: nonempty,
free of quotes and dollar signs, and not ending in a field-assignment stub
for any tracked field name. -/
def Benign (x : List Char) : Prop :=
  x ≠ [] ∧ QuoteFree x ∧ '$' ∉ x ∧ ∀ n ∈ fieldNames, hasAssignTail n x = false

instance (x : List Char) : Decidable (Benign x) := by
  unfold Benign QuoteFree
  infer_instance

theorem namesOK_fields : NamesOK [ownerName] ∧ NamesOK [repoName] ∧ NamesOK [versionName] ∧
    NamesOK [revName] ∧ NamesOK [hashName] ∧ NamesOK [sha256Name] ∧
    NamesOK [hashName, sha256Name] := by
  refine ⟨?_, ?_, ?_, ?_, ?_, ?_, ?_⟩ <;> · intro n hn; fin_cases hn <;> exact ⟨by decide, by decide⟩

/-! ### Scanner helpers -/

theorem takeWhile_all_append (p : Char → Bool) (l₁ : List Char) (c : Char) (l₂ : List Char)
    (h1 : ∀ a ∈ l₁, p a = true) (h2 : p c = false) :
    (l₁ ++ c :: l₂).takeWhile p = l₁ ∧ (l₁ ++ c :: l₂).dropWhile p = c :: l₂ := by
  induction l₁ with
  | nil => simp [List.takeWhile_cons, List.dropWhile_cons, h2]
  | cons a as ih =>
    have ha := h1 a (by simp)
    have h' := ih (fun x hx => h1 x (by simp [hx]))
    simp [List.takeWhile_cons, List.dropWhile_cons, ha, h'.1, h'.2]

theorem stripName_eq_some {n s s' : List Char} (h : stripName n s = some s') : s = n ++ s' := by
  induction n generalizing s with
  | nil => simp [stripName] at h; simp [h]
  | cons a as ih =>
    cases s with
    | nil => simp [stripName] at h
    | cons c cs =>
      simp only [stripName] at h
      split at h
      · next hac => simpa [← hac] using ih h
      · exact absurd h (by simp)

theorem stripName_append (n s : List Char) : stripName n (n ++ s) = some s := by
  induction n with
  | nil => rfl
  | cons a as ih => simp [stripName, ih]

theorem stripName_ne_head {a c : Char} {as cs : List Char} (h : ¬ a = c) :
    stripName (a :: as) (c :: cs) = none := by
  simp [stripName, h]

/-! ### Soundness and completeness of the position-wise match attempt -/

theorem expectChar_eq_some {c : Char} {s s' : List Char} (h : expectChar c s = some s') :
    s = c :: s' := by
  cases s with
  | nil => simp [expectChar] at h
  | cons a as =>
    simp only [expectChar] at h
    split at h
    · next hac => cases h; simp [hac]
    · exact absurd h (by simp)

theorem expectChar_cons (c : Char) (s : List Char) : expectChar c (c :: s) = some s := by
  simp [expectChar]

theorem matchAfterName_sound {s1 w1 w2 v r : List Char}
    (h : matchAfterName s1 = some (w1, w2, v, r)) :
    s1 = (w1 ++ '=' :: w2) ++ ('"' :: v) ++ ('"' :: r) ∧ WsOnly w1 ∧ WsOnly w2 ∧
      v ≠ [] ∧ QuoteFree v := by
  simp only [matchAfterName, bind, Option.bind_eq_some] at h
  obtain ⟨s3, h3, s5, h5, r', hr', h⟩ := h
  split at h
  · exact absurd h (by simp)
  · next hne =>
    simp only [pure, Option.some.injEq, Prod.mk.injEq] at h
    obtain ⟨hw1, hw2, hv, hr⟩ := h
    subst hw1; subst hw2; subst hv; subst hr
    have e1 : s1 = s1.takeWhile wsChar ++ '=' :: s3 := by
      rw [← expectChar_eq_some h3, List.takeWhile_append_dropWhile]
    have e2 : s3 = s3.takeWhile wsChar ++ '"' :: s5 := by
      rw [← expectChar_eq_some h5, List.takeWhile_append_dropWhile]
    have e3 : s5 = s5.takeWhile (fun c => !(c = '"')) ++ '"' :: r' := by
      rw [← expectChar_eq_some hr', List.takeWhile_append_dropWhile]
    refine ⟨?_, ?_, ?_, ?_, ?_⟩
    · conv_lhs => rw [e1, e2, e3]
      simp
    · exact fun c hc => List.mem_takeWhile_imp hc
    · exact fun c hc => List.mem_takeWhile_imp hc
    · simpa [List.isEmpty_iff] using hne
    · intro hq
      have := List.mem_takeWhile_imp hq
      simp at this

theorem matchAfterName_complete {w1 w2 v r : List Char}
    (hw1 : WsOnly w1) (hw2 : WsOnly w2) (hv : v ≠ []) (hq : QuoteFree v) :
    matchAfterName ((w1 ++ '=' :: w2) ++ ('"' :: v) ++ ('"' :: r)) = some (w1, w2, v, r) := by
  have e1 := takeWhile_all_append wsChar w1 '=' (w2 ++ ('"' :: v) ++ ('"' :: r))
    hw1 (by decide)
  have e2 := takeWhile_all_append wsChar w2 '"' (v ++ ('"' :: r)) hw2 (by decide)
  have e3 := takeWhile_all_append (fun c => !(c = '"')) v '"' r
    (fun a ha => by simp; exact fun h => hq (h ▸ ha)) (by simp)
  have hiv : v.isEmpty = false := by
    cases v with
    | nil => exact absurd rfl hv
    | cons a as => simp
  simp only [List.append_assoc, List.cons_append, List.nil_append] at e1 e2 e3 ⊢
  simp only [matchAfterName, e1.1, e1.2, expectChar_cons, bind, Option.some_bind,
    e2.1, e2.2, e3.1, e3.2, hiv, Bool.false_eq_true, if_false, pure]

theorem matchAt_sound {names : List (List Char)} {s g v r : List Char}
    (h : matchAt names s = some (g, v, r)) :
    s = g ++ ('"' :: v) ++ ('"' :: r) ∧ ShapeAny names g ∧ v ≠ [] ∧ QuoteFree v := by
  induction names with
  | nil => simp [matchAt] at h
  | cons n ns ih =>
    rw [matchAt] at h
    cases hstrip : stripName n s with
    | none =>
      simp only [hstrip] at h
      obtain ⟨h1, ⟨m, hm, hsh⟩, h3, h4⟩ := ih h
      exact ⟨h1, ⟨m, by simp [hm], hsh⟩, h3, h4⟩
    | some s1 =>
      simp only [hstrip] at h
      have hs : s = n ++ s1 := stripName_eq_some hstrip
      cases hafter : matchAfterName s1 with
      | none =>
        simp only [hafter] at h
        obtain ⟨h1, ⟨m, hm, hsh⟩, h3, h4⟩ := ih h
        exact ⟨h1, ⟨m, by simp [hm], hsh⟩, h3, h4⟩
      | some res =>
        obtain ⟨w1, w2, v', r'⟩ := res
        simp only [hafter, Option.some.injEq, Prod.mk.injEq] at h
        obtain ⟨hg, hv, hr⟩ := h
        subst hv; subst hr
        obtain ⟨hs1, hww1, hww2, hvne, hvq⟩ := matchAfterName_sound hafter
        refine ⟨?_, ⟨n, by simp, w1, w2, by simp [← hg], hww1, hww2⟩, hvne, hvq⟩
        rw [hs, hs1, ← hg]
        simp

theorem matchAt_complete {n : List Char} (ns : List (List Char)) {g v r : List Char}
    (hg : Shape n g) (hv : v ≠ []) (hq : QuoteFree v) :
    matchAt (n :: ns) (g ++ ('"' :: v) ++ ('"' :: r)) = some (g, v, r) := by
  obtain ⟨w1, w2, hgeq, hw1, hw2⟩ := hg
  subst hgeq
  have hstrip : stripName n ((n ++ (w1 ++ '=' :: w2)) ++ ('"' :: v) ++ ('"' :: r)) =
      some ((w1 ++ '=' :: w2) ++ ('"' :: v) ++ ('"' :: r)) := by
    have := stripName_append n ((w1 ++ '=' :: w2) ++ ('"' :: v) ++ ('"' :: r))
    simpa [List.append_assoc] using this
  have hafter := matchAfterName_complete (r := r) hw1 hw2 hv hq
  rw [matchAt]
  simp only [List.append_assoc, List.cons_append, List.nil_append] at hstrip hafter ⊢
  simp only [hstrip, hafter]

/-! ### Boundary bookkeeping -/

theorem boundaryOK_nil {pw : Bool} : BoundaryOK pw [] ↔ pw = false := by
  simp [BoundaryOK]

theorem boundaryOK_cons {pw : Bool} {c : Char} {p : List Char} :
    BoundaryOK pw (c :: p) ↔ BoundaryOK (wordChar c) p := by
  cases p with
  | nil => simp [BoundaryOK]
  | cons d q =>
    cases hq : (d :: q).getLast? with
    | none => simp at hq
    | some e => simp [BoundaryOK, List.getLast?_cons_cons, hq]

theorem isMatchFrom_cons {names : List (List Char)} {pw : Bool} {c : Char}
    {cs p g v r : List Char} :
    IsMatchFrom names pw (c :: cs) (c :: p) g v r ↔ IsMatchFrom names (wordChar c) cs p g v r := by
  unfold IsMatchFrom
  rw [boundaryOK_cons]
  constructor
  · rintro ⟨h1, h2, h3, h4, h5⟩
    exact ⟨by simpa using h1, h2, h3, h4, h5⟩
  · rintro ⟨h1, h2, h3, h4, h5⟩
    exact ⟨by simp [h1], h2, h3, h4, h5⟩

theorem no_match_nil {names : List (List Char)} {pw : Bool} {p g v r : List Char} :
    ¬ IsMatchFrom names pw [] p g v r := by
  rintro ⟨h1, -, -, -, -⟩
  exact absurd h1.symm (by simp)

/-! ### Single-name attempts inside an alternation -/

theorem matchAt_single_parts {n s g v r : List Char} (h : matchAt [n] s = some (g, v, r)) :
    ∃ s1 w1 w2, stripName n s = some s1 ∧ matchAfterName s1 = some (w1, w2, v, r) ∧
      g = n ++ w1 ++ '=' :: w2 := by
  rw [matchAt] at h
  cases hstrip : stripName n s with
  | none => simp [hstrip, matchAt] at h
  | some s1 =>
    simp only [hstrip] at h
    cases hafter : matchAfterName s1 with
    | none => simp [hafter, matchAt] at h
    | some res =>
      obtain ⟨w1, w2, v', r'⟩ := res
      simp only [hafter, Option.some.injEq, Prod.mk.injEq] at h
      obtain ⟨hg, hv, hr⟩ := h
      subst hv; subst hr
      exact ⟨s1, w1, w2, rfl, hafter, hg.symm⟩

theorem matchAt_isSome_of_mem {n : List Char} {names : List (List Char)} {s : List Char}
    (hmem : n ∈ names) {g v r : List Char} (h : matchAt [n] s = some (g, v, r)) :
    (matchAt names s).isSome := by
  induction names with
  | nil => simp at hmem
  | cons m ms ih =>
    rw [matchAt]
    rcases List.mem_cons.mp hmem with hmn | hmem'
    · subst hmn
      obtain ⟨s1, w1, w2, hstrip, hafter, -⟩ := matchAt_single_parts h
      simp [hstrip, hafter]
    · cases hstrip : stripName m s with
      | none => simpa [hstrip] using ih hmem'
      | some s1 =>
        cases hafter : matchAfterName s1 with
        | none => simpa [hstrip, hafter] using ih hmem'
        | some res => obtain ⟨w1, w2, v', r'⟩ := res; simp [hstrip, hafter]

theorem matchAt_isSome_iff {names : List (List Char)} {s : List Char} :
    (matchAt names s).isSome ↔
      ∃ g v r, s = g ++ ('"' :: v) ++ ('"' :: r) ∧ ShapeAny names g ∧ v ≠ [] ∧ QuoteFree v := by
  constructor
  · intro h
    obtain ⟨⟨g, v, r⟩, hgvr⟩ := Option.isSome_iff_exists.mp h
    obtain ⟨h1, h2, h3, h4⟩ := matchAt_sound hgvr
    exact ⟨g, v, r, h1, h2, h3, h4⟩
  · rintro ⟨g, v, r, h1, ⟨n, hmem, hsh⟩, h3, h4⟩
    subst h1
    exact matchAt_isSome_of_mem hmem (matchAt_complete [] hsh h3 h4)

/-! ### Characterization of the leftmost scan -/

theorem findAssign_sound {names : List (List Char)} {pw : Bool} {s p g v r : List Char}
    (h : findAssign names pw s = some (p, g, v, r)) :
    IsMatchFrom names pw s p g v r ∧
      ∀ p' g' v' r', IsMatchFrom names pw s p' g' v' r' → p.length ≤ p'.length := by
  induction s generalizing pw p g v r with
  | nil => simp [findAssign] at h
  | cons c cs ih =>
    rw [findAssign] at h
    cases hm : (if pw then none else matchAt names (c :: cs)) with
    | some gvr =>
      obtain ⟨g₀, v₀, r₀⟩ := gvr
      simp only [hm, Option.some.injEq, Prod.mk.injEq] at h
      obtain ⟨hp, hg, hv, hr⟩ := h
      subst hp; subst hg; subst hv; subst hr
      have hpw : pw = false := by
        cases pw
        · rfl
        · simp at hm
      subst hpw
      simp only [if_neg Bool.false_ne_true] at hm
      obtain ⟨h1, h2, h3, h4⟩ := matchAt_sound hm
      exact ⟨⟨by simpa using h1, h2, h3, h4, boundaryOK_nil.mpr rfl⟩,
        fun p' g' v' r' _ => by simp⟩
    | none =>
      simp only [hm] at h
      cases hrec : findAssign names (wordChar c) cs with
      | none => simp [hrec] at h
      | some pgvr =>
        obtain ⟨p₁, g₁, v₁, r₁⟩ := pgvr
        simp only [hrec, Option.some.injEq, Prod.mk.injEq] at h
        obtain ⟨hp, hg, hv, hr⟩ := h
        subst hp; subst hg; subst hv; subst hr
        obtain ⟨hM, hmin⟩ := ih hrec
        refine ⟨isMatchFrom_cons.mpr hM, ?_⟩
        intro p' g' v' r' hM'
        cases p' with
        | nil =>
          exfalso
          obtain ⟨h1, h2, h3, h4, h5⟩ := hM'
          have hpw : pw = false := boundaryOK_nil.mp h5
          subst hpw
          simp only [if_neg Bool.false_ne_true] at hm
          have : (matchAt names (c :: cs)).isSome := by
            rw [matchAt_isSome_iff]
            exact ⟨g', v', r', by simpa using h1, h2, h3, h4⟩
          rw [hm] at this
          simp at this
        | cons c' p₁' =>
          have hc : c = c' := by
            obtain ⟨h1, -, -, -, -⟩ := hM'
            simpa using congrArg (fun l => l.head?) h1
          subst hc
          have := hmin p₁' g' v' r' (isMatchFrom_cons.mp hM')
          simpa using Nat.succ_le_succ this

theorem findAssign_none_iff {names : List (List Char)} {pw : Bool} {s : List Char} :
    findAssign names pw s = none ↔ ∀ p g v r, ¬ IsMatchFrom names pw s p g v r := by
  constructor
  · intro h p g v r hM
    induction s generalizing pw p with
    | nil => exact no_match_nil hM
    | cons c cs ih =>
      rw [findAssign] at h
      cases hm : (if pw then none else matchAt names (c :: cs)) with
      | some gvr => obtain ⟨g₀, v₀, r₀⟩ := gvr; simp [hm] at h
      | none =>
        simp only [hm] at h
        cases hrec : findAssign names (wordChar c) cs with
        | some pgvr => obtain ⟨p₁, g₁, v₁, r₁⟩ := pgvr; simp [hrec] at h
        | none =>
          cases p with
          | nil =>
            obtain ⟨h1, h2, h3, h4, h5⟩ := hM
            have hpw : pw = false := boundaryOK_nil.mp h5
            subst hpw
            simp only [if_neg Bool.false_ne_true] at hm
            have : (matchAt names (c :: cs)).isSome := by
              rw [matchAt_isSome_iff]
              exact ⟨g, v, r, by simpa using h1, h2, h3, h4⟩
            rw [hm] at this
            simp at this
          | cons c' p₁ =>
            have hc : c = c' := by
              obtain ⟨h1, -, -, -, -⟩ := hM
              simpa using congrArg (fun l => l.head?) h1
            subst hc
            exact ih hrec p₁ (isMatchFrom_cons.mp hM)
  · intro h
    cases hf : findAssign names pw s with
    | none => rfl
    | some pgvr =>
      obtain ⟨p, g, v, r⟩ := pgvr
      exact absurd (findAssign_sound hf).1 (h p g v r)

/-! ### Determinism of a match at a fixed position -/

theorem runs_unique {p : Char → Bool} {a b : List Char} {c d : Char} {x y : List Char}
    (ha : ∀ z ∈ a, p z = true) (hb : ∀ z ∈ b, p z = true) (hc : p c = false) (hd : p d = false)
    (he : a ++ c :: x = b ++ d :: y) : a = b ∧ c = d ∧ x = y := by
  have e1 := (takeWhile_all_append p a c x ha hc).1
  have e2 := (takeWhile_all_append p b d y hb hd).1
  have hab : a = b := by rw [← e1, he, e2]
  subst hab
  have := List.append_cancel_left he
  exact ⟨rfl, by simpa using this⟩

theorem shape_eq_of_append_eq {names : List (List Char)} (hsep : NamesSep names)
    {g g' X X' : List Char} (s1 : ShapeAny names g) (s2 : ShapeAny names g')
    (he : g ++ ('"' :: X) = g' ++ ('"' :: X')) : g = g' ∧ X = X' := by
  obtain ⟨n, hn, w1, w2, hg, hw1, hw2⟩ := s1
  obtain ⟨n', hn', w1', w2', hg', hw1', hw2'⟩ := s2
  subst hg; subst hg'
  have hnn : n = n' := by
    have hee : n ++ (w1 ++ '=' :: (w2 ++ '"' :: X)) = n' ++ (w1' ++ '=' :: (w2' ++ '"' :: X')) := by
      simpa [List.append_assoc] using he
    rcases List.append_eq_append_iff.mp hee with ⟨a, hna, -⟩ | ⟨a, hna, -⟩
    · exact hsep n hn n' hn' (List.isPrefixOf_iff_prefix.mpr ⟨a, hna.symm⟩)
    · exact (hsep n' hn' n hn (List.isPrefixOf_iff_prefix.mpr ⟨a, hna.symm⟩)).symm
  subst hnn
  have hee : w1 ++ '=' :: (w2 ++ '"' :: X) = w1' ++ '=' :: (w2' ++ '"' :: X') := by
    have := he
    simp only [List.append_assoc, List.cons_append] at this
    exact List.append_cancel_left this
  obtain ⟨e1, -, hee2⟩ := runs_unique hw1 hw1' (by decide) (by decide) hee
  subst e1
  obtain ⟨e2, -, hee3⟩ := runs_unique hw2 hw2' (by decide) (by decide) hee2
  subst e2
  exact ⟨rfl, hee3⟩

theorem values_unique {v v' X X' : List Char} (hq : QuoteFree v) (hq' : QuoteFree v')
    (he : v ++ ('"' :: X) = v' ++ ('"' :: X')) : v = v' ∧ X = X' := by
  have h := runs_unique (p := fun c => !(c = '"'))
    (fun z hz => by simp; exact fun hh => hq (hh ▸ hz))
    (fun z hz => by simp; exact fun hh => hq' (hh ▸ hz)) (by simp) (by simp) he
  exact ⟨h.1, h.2.2⟩

theorem decomposition_unique {names : List (List Char)} (hsep : NamesSep names)
    {g v r g' v' r' : List Char}
    (s1 : ShapeAny names g) (hq : QuoteFree v) (s2 : ShapeAny names g') (hq' : QuoteFree v')
    (he : g ++ ('"' :: v) ++ ('"' :: r) = g' ++ ('"' :: v') ++ ('"' :: r')) :
    g = g' ∧ v = v' ∧ r = r' := by
  have he' : g ++ ('"' :: (v ++ '"' :: r)) = g' ++ ('"' :: (v' ++ '"' :: r')) := by
    simpa [List.append_assoc] using he
  obtain ⟨hgg, hXX⟩ := shape_eq_of_append_eq hsep s1 s2 he'
  obtain ⟨hvv, hrr⟩ := values_unique hq hq' hXX
  exact ⟨hgg, hvv, hrr⟩

/-- A match with a position no other match undercuts or differs from is the one
the leftmost scan returns. -/
theorem findAssign_eq_of_unique {names : List (List Char)} {pw : Bool} {s p g v r : List Char}
    (hsep : NamesSep names) (hm : IsMatchFrom names pw s p g v r)
    (hu : ∀ p' g' v' r', IsMatchFrom names pw s p' g' v' r' → p'.length = p.length) :
    findAssign names pw s = some (p, g, v, r) := by
  cases hf : findAssign names pw s with
  | none => exact absurd hm (findAssign_none_iff.mp hf p g v r)
  | some q =>
    obtain ⟨p', g', v', r'⟩ := q
    obtain ⟨hm', -⟩ := findAssign_sound hf
    have hlen : p'.length = p.length := hu p' g' v' r' hm'
    have heq : p' ++ (g' ++ (('"' :: v') ++ ('"' :: r'))) =
        p ++ (g ++ (('"' :: v) ++ ('"' :: r))) := by
      simpa only [List.append_assoc] using hm'.1.symm.trans hm.1
    obtain ⟨hpp, hXX⟩ := List.append_inj heq hlen
    subst hpp
    have hXX' : g' ++ ('"' :: v') ++ ('"' :: r') = g ++ ('"' :: v) ++ ('"' :: r) := by
      simpa only [List.append_assoc] using hXX
    obtain ⟨hgg, hvv, hrr⟩ := decomposition_unique hsep hm'.2.1 hm'.2.2.2.1 hm.2.1 hm.2.2.2.1 hXX'
    rw [hgg, hvv, hrr]

/-! ### Replacement computation -/

theorem expandDollar_no_dollar {whole g1 pre post : List Char} :
    ∀ {w : List Char}, '$' ∉ w → expandDollar whole g1 pre post w = w
  | [], _ => rfl
  | c :: rest, h => by
    have hc : ¬ c = '$' := fun hh => h (by simp [hh])
    rw [expandDollar.eq_def]
    simp only
    rw [if_neg hc, expandDollar_no_dollar (fun hh => h (by simp [hh]))]

/-- The replacement template `$1"w"` expands to `g ++ '"'::w ++ ['"']` when the
new value carries no `$`. -/
theorem replaceField_eq_of_find {names : List (List Char)} {w s p g v r : List Char}
    (hf : findAssign names false s = some (p, g, v, r)) (hd : '$' ∉ w) :
    replaceField names w s = p ++ g ++ ('"' :: w) ++ ('"' :: r) := by
  have hnd : '$' ∉ '"' :: (w ++ ['"']) := by
    intro hmem
    rcases List.mem_cons.mp hmem with h | h
    · exact absurd h.symm (by decide)
    · rcases List.mem_append.mp h with h | h
      · exact hd h
      · simp at h
  have he : expandDollar (g ++ '"' :: v ++ ['"']) g p r ('$' :: '1' :: '"' :: (w ++ ['"'])) =
      g ++ '"' :: (w ++ ['"']) := by
    rw [expandDollar]
    simp [expandDollar_no_dollar hnd]
  simp only [replaceField, hf, he]
  simp [List.append_assoc]

theorem replaceField_eq_of_none {names : List (List Char)} {w s : List Char}
    (hf : findAssign names false s = none) : replaceField names w s = s := by
  rw [replaceField, hf]

/-! ### Helpers for the replacement-stability analysis -/

theorem shape_props {names : List (List Char)} (hok : NamesOK names) {g : List Char}
    (hs : ShapeAny names g) : g ≠ [] ∧ QuoteFree g := by
  obtain ⟨n, hn, w1, w2, hg, hw1, hw2⟩ := hs
  have hnOK := hok n hn
  subst hg
  refine ⟨by simp, ?_⟩
  intro hq
  rcases List.mem_append.mp hq with hq | hq
  · rcases List.mem_append.mp hq with hq | hq
    · exact absurd (hnOK.2 '"' hq).1 (by decide)
    · exact absurd (hw1 '"' hq) (by decide)
  · rcases List.mem_cons.mp hq with hq | hq
    · exact absurd hq (by decide)
    · exact absurd (hw2 '"' hq) (by decide)

theorem carve {t X Y Z W : List Char} (h1 : t = X ++ Y) (h2 : t = Z ++ W)
    (hle : X.length ≤ Z.length) : ∃ M, Z = X ++ M ∧ Y = M ++ W := by
  rcases List.append_eq_append_iff.mp (h1.symm.trans h2) with ⟨M, hM1, hM2⟩ | ⟨M, hM1, hM2⟩
  · exact ⟨M, hM1, hM2⟩
  · have hM : M = [] := by
      have := congrArg List.length hM1
      simp only [List.length_append] at this
      have : M.length = 0 := by omega
      exact List.length_eq_zero.mp this
    subst hM
    exact ⟨[], by simpa using hM1.symm, by simpa using hM2.symm⟩

theorem assignTailAt_of_shape {n h : List Char} (hs : Shape n h) : assignTailAt n h = true := by
  obtain ⟨w1, w2, hg, hw1, hw2⟩ := hs
  subst hg
  have hstrip : stripName n (n ++ (w1 ++ '=' :: w2)) = some (w1 ++ '=' :: w2) :=
    stripName_append n (w1 ++ '=' :: w2)
  have hdw := (takeWhile_all_append wsChar w1 '=' w2 hw1 (by decide)).2
  simp only [assignTailAt, List.append_assoc, hstrip, hdw]
  exact List.all_eq_true.mpr (fun c hc => hw2 c hc)

theorem hasAssignTail_of_shape {n : List Char} :
    ∀ {u h w : List Char}, w = u ++ h → Shape n h → hasAssignTail n w = true := by
  intro u
  induction u with
  | nil =>
    intro h w hw hs
    simp only [List.nil_append] at hw
    rw [hw]
    have hne : h ≠ [] := by
      obtain ⟨w1, w2, hg, -, -⟩ := hs
      simp [hg]
    cases h with
    | nil => exact absurd rfl hne
    | cons c rest =>
      rw [hasAssignTail]
      simp [assignTailAt_of_shape hs]
  | cons a as ih =>
    intro h w hw hs
    subst hw
    rw [List.cons_append, hasAssignTail]
    simp [ih rfl hs]

theorem boundaryOK_append_cons {pw : Bool} {A M : List Char} {c : Char} :
    BoundaryOK pw (A ++ c :: M) ↔ BoundaryOK pw (c :: M) := by
  unfold BoundaryOK
  rw [List.getLast?_append]
  cases hcm : (c :: M).getLast? with
  | none => simp at hcm
  | some e => simp [Option.or]

theorem quote_head_of_append {Z W h : List Char} (hne : h ≠ [])
    (he : ('"' : Char) :: Z = h ++ W) : '"' ∈ h := by
  cases h with
  | nil => exact absurd rfl hne
  | cons a h₁ =>
    have : '"' = a := by simpa using congrArg (fun l => l.head?) he
    simp [← this]

/-- Backward transfer of a match across a value replacement.  Replace the
quote-delimited value `v` (sitting after prefix `P` and before remainder `R`)
by `w`; then every field match of the new text corresponds to one of the old
text: either a match whose name part ends at or before the span's opening
quote (same prefix, left disjunct), or one lying beyond the span's closing
quote (prefix shifted across the value swap, right disjunct).  The hypotheses
on `w` (no quotes, no assignment stub as a suffix) rule out matches woven
through the inserted value. -/
theorem match_back {names : List (List Char)} (hok : NamesOK names)
    {P v w R q h u s : List Char}
    (hv : v ≠ []) (hvq : QuoteFree v) (hwq : QuoteFree w)
    (htail : ∀ n ∈ names, hasAssignTail n w = false)
    (hm : IsMatchFrom names false (P ++ ('"' :: w) ++ ('"' :: R)) q h u s) :
    (q.length + h.length ≤ P.length ∧
      ∃ u' s', IsMatchFrom names false (P ++ ('"' :: v) ++ ('"' :: R)) q h u' s') ∨
    (∃ M, q = P ++ ('"' :: w) ++ ('"' :: M) ∧
      IsMatchFrom names false (P ++ ('"' :: v) ++ ('"' :: R))
        (P ++ ('"' :: v) ++ ('"' :: M)) h u s) := by
  obtain ⟨ht, hsh, hune, huq, hb⟩ := hm
  obtain ⟨hhne, hhq⟩ := shape_props hok hsh
  have he : P ++ ('"' :: (w ++ '"' :: R)) = q ++ (h ++ '"' :: (u ++ '"' :: s)) := by
    simpa only [List.append_assoc, List.cons_append] using ht
  rcases List.append_eq_append_iff.mp he with ⟨M, hqP, hX⟩ | ⟨M, hPq, hY⟩
  · -- the match starts at or after the span's opening quote
    cases M with
    | nil =>
      simp only [List.append_nil] at hqP
      simp only [List.nil_append] at hX
      exact absurd (quote_head_of_append hhne hX) hhq
    | cons m M₁ =>
      have hm1 : m = '"' := by simpa using (congrArg (fun l => l.head?) hX).symm
      subst hm1
      have hX₁ : w ++ ('"' :: R) = M₁ ++ (h ++ '"' :: (u ++ '"' :: s)) := by
        simpa using hX
      rcases List.append_eq_append_iff.mp hX₁ with ⟨K, hMK, hK⟩ | ⟨K, hwK, hK⟩
      · -- M₁ = w ++ K : the name part starts at or beyond the closing quote
        cases K with
        | nil =>
          simp only [List.nil_append] at hK
          exact absurd (quote_head_of_append hhne hK) hhq
        | cons k K₁ =>
          have hk : k = '"' := by simpa using (congrArg (fun l => l.head?) hK).symm
          subst hk
          have hR : R = K₁ ++ (h ++ '"' :: (u ++ '"' :: s)) := by simpa using hK
          have hq2 : q = (P ++ ('"' :: w)) ++ ('"' :: K₁) := by
            rw [hqP, hMK]
            simp
          refine Or.inr ⟨K₁, by rw [hq2], ?_, hsh, hune, huq, ?_⟩
          · rw [hR]
            simp
          · rw [hq2] at hb
            exact boundaryOK_append_cons.mpr (boundaryOK_append_cons.mp hb)
      · -- w = M₁ ++ K : the name part begins inside the inserted value
        cases K with
        | nil =>
          simp only [List.nil_append] at hK
          exact absurd (quote_head_of_append hhne hK.symm) hhq
        | cons k K₁ =>
          cases h with
          | nil => exact absurd rfl hhne
          | cons h₀ h₁ =>
            have hk : h₀ = k := by simpa using congrArg (fun l => l.head?) hK
            subst hk
            have hK₁ : h₁ ++ ('"' :: (u ++ '"' :: s)) = K₁ ++ ('"' :: R) := by
              simpa using hK
            rcases List.append_eq_append_iff.mp hK₁ with ⟨L, hKL, hL⟩ | ⟨L, hhL, hL⟩
            · cases L with
              | nil =>
                simp only [List.append_nil] at hKL
                obtain ⟨n, hn, hshn⟩ := hsh
                have hku : hasAssignTail n w = true :=
                  hasAssignTail_of_shape (u := M₁) (by rw [hwK, hKL]) hshn
                rw [htail n hn] at hku
                exact absurd hku (by simp)
              | cons l L₁ =>
                have hl : l = '"' := by simpa using (congrArg (fun l => l.head?) hL).symm
                subst hl
                have : '"' ∈ w := by
                  rw [hwK, hKL]
                  simp
                exact absurd this hwq
            · cases L with
              | nil =>
                simp only [List.append_nil] at hhL
                obtain ⟨n, hn, hshn⟩ := hsh
                have hku : hasAssignTail n w = true :=
                  hasAssignTail_of_shape (u := M₁) (by rw [hwK, hhL]) hshn
                rw [htail n hn] at hku
                exact absurd hku (by simp)
              | cons l L₁ =>
                have hl : l = '"' := by simpa using (congrArg (fun l => l.head?) hL).symm
                subst hl
                have : '"' ∈ h₀ :: h₁ := by
                  rw [hhL]
                  simp
                exact absurd this hhq
  · -- the match starts before the span's opening quote
    rcases List.append_eq_append_iff.mp hY with ⟨K, hMK, hK⟩ | ⟨K, hhK, hK⟩
    · -- M = h ++ K : the name part ends at or before the span's opening quote
      cases K with
      | nil =>
        -- over the span: the match's value is exactly the replaced value
        simp only [List.append_nil] at hMK
        simp only [List.nil_append] at hK
        have hK' : u ++ ('"' :: s) = w ++ ('"' :: R) := by simpa using hK
        refine Or.inl ⟨?_, v, R, ?_, hsh, hv, hvq, hb⟩
        · rw [hPq, hMK]
          try simp
        · rw [hPq, hMK]
          try simp
      | cons k K₁ =>
        have hk : k = '"' := by simpa using (congrArg (fun l => l.head?) hK).symm
        subst hk
        have hK' : u ++ ('"' :: s) = K₁ ++ ('"' :: (w ++ '"' :: R)) := by simpa using hK
        rcases List.append_eq_append_iff.mp hK' with ⟨L, hKL, hL⟩ | ⟨L, huL, hL⟩
        · cases L with
          | nil =>
            -- the match's closing quote is the span's opening quote
            simp only [List.append_nil] at hKL
            refine Or.inl ⟨?_, u, v ++ ('"' :: R), ?_, hsh, hune, huq, hb⟩
            · rw [hPq, hMK, hKL]
              try simp
              try omega
            · rw [hPq, hMK, hKL]
              try simp
          | cons l L₁ =>
            have hl : l = '"' := by simpa using (congrArg (fun l => l.head?) hL).symm
            subst hl
            have hs' : s = L₁ ++ ('"' :: (w ++ '"' :: R)) := by simpa using hL
            -- the whole match lies strictly before the span
            refine Or.inl ⟨?_, u, L₁ ++ ('"' :: v) ++ ('"' :: R), ?_, hsh, hune, huq, hb⟩
            · rw [hPq, hMK, hKL]
              try simp
              try omega
            · rw [hPq, hMK, hKL]
              try simp
        · cases L with
          | nil =>
            simp only [List.append_nil] at huL
            simp only [List.nil_append] at hL
            refine Or.inl ⟨?_, u, v ++ ('"' :: R), ?_, hsh, hune, huq, hb⟩
            · rw [hPq, hMK]
              try simp [huL]
              try omega
            · rw [hPq, hMK]
              try simp [huL]
          | cons l L₁ =>
            have hl : l = '"' := by simpa using (congrArg (fun l => l.head?) hL).symm
            subst hl
            have : '"' ∈ u := by
              rw [huL]
              simp
            exact absurd this huq
    · -- h = M ++ K with K reaching into the quote: impossible for a name part
      cases K with
      | nil =>
        simp only [List.append_nil] at hhK
        simp only [List.nil_append] at hK
        have hK' : w ++ ('"' :: R) = u ++ ('"' :: s) := by simpa using hK
        obtain ⟨hwu, hRs⟩ := values_unique hwq huq hK'
        refine Or.inl ⟨?_, v, R, ?_, hsh, hv, hvq, hb⟩
        · rw [hPq, hhK]
          try simp
        · rw [hPq, hhK]
          try simp
      | cons k K₁ =>
        have hk : k = '"' := by simpa using (congrArg (fun l => l.head?) hK).symm
        subst hk
        have : '"' ∈ h := by
          rw [hhK]
          simp
        exact absurd this hhq

/-! ### Match positions and uniqueness -/

theorem mem_matchPositions {names : List (List Char)} {pw : Bool} {s : List Char} {k : Nat} :
    k ∈ matchPositions names pw s ↔
      ∃ p g v r, IsMatchFrom names pw s p g v r ∧ p.length = k := by
  induction s generalizing pw k with
  | nil =>
    simp only [matchPositions, List.not_mem_nil, false_iff]
    rintro ⟨p, g, v, r, hM, -⟩
    exact no_match_nil hM
  | cons c cs ih =>
    rw [matchPositions]
    constructor
    · intro hk
      rcases List.mem_append.mp hk with hk | hk
      · have hcond : (!pw && (matchAt names (c :: cs)).isSome) = true := by
          by_contra hc
          rw [if_neg hc] at hk
          simp at hk
        rw [if_pos hcond] at hk
        have hk0 : k = 0 := by simpa using hk
        obtain ⟨hpw, hsome⟩ := Bool.and_eq_true_iff.mp hcond
        obtain ⟨g, v, r, h1, h2, h3, h4⟩ := matchAt_isSome_iff.mp hsome
        refine ⟨[], g, v, r, ⟨by simpa using h1, h2, h3, h4, ?_⟩, by simp [hk0]⟩
        exact boundaryOK_nil.mpr (by simpa using hpw)
      · obtain ⟨j, hj, hjk⟩ := List.mem_map.mp hk
        obtain ⟨p, g, v, r, hM, hpl⟩ := ih.mp hj
        exact ⟨c :: p, g, v, r, isMatchFrom_cons.mpr hM, by simp [hpl, hjk]⟩
    · rintro ⟨p, g, v, r, hM, hpl⟩
      cases p with
      | nil =>
        have h0 : k = 0 := by simpa using hpl.symm
        subst h0
        have hpw : pw = false := boundaryOK_nil.mp hM.2.2.2.2
        have hsome : (matchAt names (c :: cs)).isSome := by
          rw [matchAt_isSome_iff]
          exact ⟨g, v, r, by simpa using hM.1, hM.2.1, hM.2.2.1, hM.2.2.2.1⟩
        apply List.mem_append.mpr
        left
        rw [if_pos (by simp [hpw, hsome])]
        simp
      | cons c' p₁ =>
        have hc : c = c' := by
          obtain ⟨h1, -, -, -, -⟩ := hM
          simpa using congrArg (fun l => l.head?) h1
        subst hc
        apply List.mem_append.mpr
        right
        refine List.mem_map.mpr ⟨p₁.length, ih.mpr ⟨p₁, g, v, r, isMatchFrom_cons.mp hM, rfl⟩, ?_⟩
        simpa using hpl

theorem uniqueMatch_of_positions {names : List (List Char)} {t p g v r : List Char}
    (hf : findAssign names false t = some (p, g, v, r))
    (hpos : matchPositions names false t = [p.length]) :
    UniqueMatch names t p g v r := by
  refine ⟨(findAssign_sound hf).1, ?_⟩
  intro p' g' v' r' hM'
  have : p'.length ∈ matchPositions names false t :=
    mem_matchPositions.mpr ⟨p', g', v', r', hM', rfl⟩
  rw [hpos] at this
  simpa using this

theorem findAssign_of_uniqueMatch {names : List (List Char)} {t p g v r : List Char}
    (hsep : NamesSep names) (hU : UniqueMatch names t p g v r) :
    findAssign names false t = some (p, g, v, r) :=
  findAssign_eq_of_unique hsep hU.1 hU.2

/-- Numeric corollary of `match_back`: if all matches of the original text
start at prefix length `k`, then a match of the value-replaced text starts at
`k` (and lies at or before the span) or at `k` shifted by the value swap (and
lies beyond the span). -/
theorem unique_pos_transfer {names : List (List Char)} (hok : NamesOK names)
    {P v w r : List Char} {k : Nat}
    (hv : v ≠ []) (hvq : QuoteFree v) (hwq : QuoteFree w)
    (htail : ∀ n ∈ names, hasAssignTail n w = false)
    (hu : ∀ q h u s, IsMatchFrom names false (P ++ ('"' :: v) ++ ('"' :: r)) q h u s →
      q.length = k) :
    ∀ q₂ h₂ u₂ s₂, IsMatchFrom names false (P ++ ('"' :: w) ++ ('"' :: r)) q₂ h₂ u₂ s₂ →
      (q₂.length = k ∧ q₂.length + h₂.length ≤ P.length) ∨
      (q₂.length + v.length = k + w.length ∧ P.length + v.length + 2 ≤ k) := by
  intro q₂ h₂ u₂ s₂ hm₂
  rcases match_back hok hv hvq hwq htail hm₂ with ⟨hbound, u', s', hm'⟩ | ⟨M, hq₂, hm'⟩
  · exact Or.inl ⟨hu q₂ h₂ u' s' hm', hbound⟩
  · right
    have hk := hu _ h₂ u₂ s₂ hm'
    have hlen : P.length + (v.length + (M.length + 1) + 1) = k := by
      simpa [List.length_append] using hk
    constructor
    · have : q₂.length = P.length + 1 + w.length + 1 + M.length := by
        simp [hq₂, List.length_append]
        omega
      omega
    · omega

/-- A name part cannot carry two different names of a separated alternation. -/
theorem shape_name_unique {m n g : List Char}
    (hmp : ¬ m.isPrefixOf n) (hnp : ¬ n.isPrefixOf m)
    (h1 : Shape m g) (h2 : Shape n g) : False := by
  obtain ⟨w1, w2, hg1, -, -⟩ := h1
  obtain ⟨y1, y2, hg2, -, -⟩ := h2
  have he : m ++ (w1 ++ '=' :: w2) = n ++ (y1 ++ '=' :: y2) := by
    rw [← List.append_assoc, ← List.append_assoc, ← hg1, ← hg2]
  rcases List.append_eq_append_iff.mp he with ⟨a, hna, -⟩ | ⟨a, hna, -⟩
  · exact hmp (List.isPrefixOf_iff_prefix.mpr ⟨a, hna.symm⟩)
  · exact hnp (List.isPrefixOf_iff_prefix.mpr ⟨a, hna.symm⟩)

/-- A match for a single name is a match for any alternation containing it. -/
theorem isMatchFrom_mono {n : List Char} {names : List (List Char)} (hmem : n ∈ names)
    {pw : Bool} {t p g v r : List Char} (hM : IsMatchFrom [n] pw t p g v r) :
    IsMatchFrom names pw t p g v r := by
  obtain ⟨h1, ⟨m, hm, hsh⟩, h3, h4, h5⟩ := hM
  have : m = n := by simpa using hm
  subst this
  exact ⟨h1, ⟨m, hmem, hsh⟩, h3, h4, h5⟩

/-! ### Benign replacement values and alternation instances -/

theorem benign_tail {x : List Char} (h : Benign x) {names : List (List Char)}
    (hsub : ∀ n ∈ names, n ∈ fieldNames) : ∀ n ∈ names, hasAssignTail n x = false :=
  fun n hn => h.2.2.2 n (hsub n hn)

theorem namesSep_single (n : List Char) : NamesSep [n] := by
  intro m hm n' hn' _
  simp only [List.mem_singleton] at hm hn'
  rw [hm, hn']

theorem namesSep_alias : NamesSep [hashName, sha256Name] := by
  intro m hm n hn
  fin_cases hm <;> fin_cases hn <;> decide

theorem namesOK_alias : NamesOK [hashName, sha256Name] := namesOK_fields.2.2.2.2.2.2

/-! ### Positional uniqueness transfer for the pipeline -/

theorem transfer_unique_left {names : List (List Char)} (hok : NamesOK names)
    {P v w r : List Char} {k : Nat}
    (hv : v ≠ []) (hvq : QuoteFree v) (hwq : QuoteFree w)
    (htail : ∀ n ∈ names, hasAssignTail n w = false)
    (hu : ∀ q h u s, IsMatchFrom names false (P ++ ('"' :: v) ++ ('"' :: r)) q h u s →
      q.length = k)
    (hk : k < P.length + v.length + 2) :
    ∀ q h u s, IsMatchFrom names false (P ++ ('"' :: w) ++ ('"' :: r)) q h u s →
      q.length = k := by
  intro q h u s hm
  rcases unique_pos_transfer hok hv hvq hwq htail hu q h u s hm with ⟨h1, -⟩ | ⟨-, h2⟩
  · exact h1
  · omega

theorem transfer_unique_right {names : List (List Char)} (hok : NamesOK names)
    {P v w r : List Char} {k : Nat}
    (hv : v ≠ []) (hvq : QuoteFree v) (hwq : QuoteFree w)
    (htail : ∀ n ∈ names, hasAssignTail n w = false)
    (hu : ∀ q h u s, IsMatchFrom names false (P ++ ('"' :: v) ++ ('"' :: r)) q h u s →
      q.length = k)
    (hk : P.length + v.length + 2 ≤ k) :
    ∀ q h u s, IsMatchFrom names false (P ++ ('"' :: w) ++ ('"' :: r)) q h u s →
      q.length + v.length = k + w.length := by
  intro q h u s hm
  rcases unique_pos_transfer hok hv hvq hwq htail hu q h u s hm with ⟨h1, h2⟩ | ⟨h1, -⟩
  · omega
  · exact h1

/-! ### The hash/sha256 selection stage -/

theorem unique_singleton_of_alias {t pa ga va ra n : List Char}
    (hmem : n ∈ [hashName, sha256Name])
    (hUa : UniqueMatch [hashName, sha256Name] t pa ga va ra) (hsh : Shape n ga) :
    UniqueMatch [n] t pa ga va ra := by
  obtain ⟨⟨h1, -, h3, h4, h5⟩, hu⟩ := hUa
  refine ⟨⟨h1, ⟨n, by simp, hsh⟩, h3, h4, h5⟩, ?_⟩
  intro q h u s hM
  exact hu q h u s (isMatchFrom_mono hmem hM)

theorem hashTest_true_of_hash {t pa ga va ra : List Char}
    (hUa : UniqueMatch [hashName, sha256Name] t pa ga va ra) (hsh : Shape hashName ga) :
    hashTest t = true := by
  unfold hashTest
  cases hf : findAssign [hashName] false t with
  | none =>
    exfalso
    obtain ⟨⟨h1, -, h3, h4, h5⟩, -⟩ := hUa
    exact findAssign_none_iff.mp hf pa ga va ra ⟨h1, ⟨hashName, by simp, hsh⟩, h3, h4, h5⟩
  | some x => rfl

theorem hashTest_false_of_sha {t pa ga va ra : List Char}
    (hUa : UniqueMatch [hashName, sha256Name] t pa ga va ra) (hsh : Shape sha256Name ga) :
    hashTest t = false := by
  unfold hashTest
  cases hf : findAssign [hashName] false t with
  | none => rfl
  | some x =>
    exfalso
    obtain ⟨p, g, v, r⟩ := x
    obtain ⟨hM, -⟩ := findAssign_sound hf
    have hMa := isMatchFrom_mono (List.mem_cons_self hashName [sha256Name]) hM
    have hlen : p.length = pa.length := hUa.2 p g v r hMa
    have heq : p ++ (g ++ (('"' :: v) ++ ('"' :: r))) =
        pa ++ (ga ++ (('"' :: va) ++ ('"' :: ra))) := by
      simpa only [List.append_assoc] using hM.1.symm.trans hUa.1.1
    obtain ⟨hpp, hXX⟩ := List.append_inj heq hlen
    have hXX' : g ++ ('"' :: v) ++ ('"' :: r) = ga ++ ('"' :: va) ++ ('"' :: ra) := by
      simpa only [List.append_assoc] using hXX
    obtain ⟨hgg, -, -⟩ := decomposition_unique namesSep_alias hMa.2.1 hM.2.2.2.1
      hUa.1.2.1 hUa.1.2.2.2.1 hXX'
    obtain ⟨m, hm, hshm⟩ := hM.2.1
    have hmh : m = hashName := by simpa using hm
    subst hmh
    rw [hgg] at hshm
    exact shape_name_unique (by decide) (by decide) hshm hsh

/-- The update's hash stage: try the `hash` field on the current text, fall
back to `sha256`; with a unique alias match it rewrites exactly that match's
value. -/
theorem hash_stage_eq {t pa ga va ra w : List Char}
    (hUa : UniqueMatch [hashName, sha256Name] t pa ga va ra) (hd : '$' ∉ w) :
    (if hashTest t then replaceField [hashName] w t else replaceField [sha256Name] w t) =
      pa ++ ga ++ ('"' :: w) ++ ('"' :: ra) := by
  obtain ⟨n, hmem, hsh⟩ := hUa.1.2.1
  rcases (by simpa using hmem : n = hashName ∨ n = sha256Name) with rfl | rfl
  · rw [hashTest_true_of_hash hUa hsh, if_pos rfl]
    exact replaceField_eq_of_find
      (findAssign_of_uniqueMatch (namesSep_single _) (unique_singleton_of_alias (by simp) hUa hsh)) hd
  · rw [hashTest_false_of_sha hUa hsh, if_neg Bool.false_ne_true]
    exact replaceField_eq_of_find
      (findAssign_of_uniqueMatch (namesSep_single _) (unique_singleton_of_alias (by simp) hUa hsh)) hd

/-- A unique match survives the replacement of a disjoint (or its own) value
span: exhibit the corresponding match of the new text and place it with the
position arithmetic; uniqueness transfers. -/
theorem uniqueMatch_transfer_pos {names : List (List Char)} (hok : NamesOK names)
    {P v w r : List Char}
    (hv : v ≠ []) (hvq : QuoteFree v) (hwq : QuoteFree w)
    (htail : ∀ n ∈ names, hasAssignTail n w = false)
    {p g vd rd p' g' vd' rd' : List Char}
    (hU : UniqueMatch names (P ++ ('"' :: v) ++ ('"' :: r)) p g vd rd)
    (hM' : IsMatchFrom names false (P ++ ('"' :: w) ++ ('"' :: r)) p' g' vd' rd')
    (hpos : (p'.length = p.length ∧ p.length < P.length + v.length + 2) ∨
      (p'.length + v.length = p.length + w.length ∧ P.length + v.length + 2 ≤ p.length)) :
    UniqueMatch names (P ++ ('"' :: w) ++ ('"' :: r)) p' g' vd' rd' := by
  refine ⟨hM', ?_⟩
  intro q h u s hm
  rcases hpos with ⟨hp, hk⟩ | ⟨hp, hk⟩
  · rw [hp]
    exact transfer_unique_left hok hv hvq hwq htail hU.2 hk q h u s hm
  · have := transfer_unique_right hok hv hvq hwq htail hU.2 hk q h u s hm
    omega

/-- Replacing the unique match's own value yields the unique match of the new
text. -/
theorem uniqueMatch_self_replace {names : List (List Char)} (hok : NamesOK names)
    {p g v w r : List Char}
    (hU : UniqueMatch names (p ++ g ++ ('"' :: v) ++ ('"' :: r)) p g v r)
    (hw : w ≠ []) (hwq : QuoteFree w) (htail : ∀ n ∈ names, hasAssignTail n w = false) :
    UniqueMatch names (p ++ g ++ ('"' :: w) ++ ('"' :: r)) p g w r := by
  have hM' : IsMatchFrom names false (p ++ g ++ ('"' :: w) ++ ('"' :: r)) p g w r :=
    ⟨rfl, hU.1.2.1, hw, hwq, hU.1.2.2.2.2⟩
  exact uniqueMatch_transfer_pos hok hU.1.2.2.1 hU.1.2.2.2.1 hwq htail hU hM'
    (Or.inl ⟨rfl, by simp [List.length_append]; omega⟩)

theorem uniqueMatch_congr {names : List (List Char)} {t t' p g v r : List Char}
    (h : t = t') (hU : UniqueMatch names t p g v r) : UniqueMatch names t' p g v r :=
  h ▸ hU

theorem namesOK_version : NamesOK [versionName] := namesOK_fields.2.2.1

theorem namesOK_rev : NamesOK [revName] := namesOK_fields.2.2.2.1

/-- Steps 2 and 3 of the update pipeline, starting from the state after the
version replacement. -/
theorem update_pipeline_rest (U : NixUpdateData) (opts : UpdateOptions)
    {t pv gv vv rv B C gr vr rr ga va ra : List Char}
    (hUv1 : UniqueMatch [versionName] (pv ++ gv ++ ('"' :: U.version) ++ ('"' :: rv))
      pv gv U.version rv)
    (hUr1 : UniqueMatch [revName] (pv ++ gv ++ ('"' :: U.version) ++ ('"' :: rv))
      (pv ++ gv ++ ('"' :: U.version) ++ ('"' :: B)) gr vr rr)
    (hUa1 : UniqueMatch [hashName, sha256Name] (pv ++ gv ++ ('"' :: U.version) ++ ('"' :: rv))
      (pv ++ gv ++ ('"' :: U.version) ++ ('"' :: (B ++ gr ++ ('"' :: vr) ++ ('"' :: C))))
      ga va ra)
    (hu1 : replaceField [versionName] U.version t =
      pv ++ gv ++ ('"' :: U.version) ++ ('"' :: rv))
    (hrrC : rr = C ++ (ga ++ ('"' :: va) ++ ('"' :: ra)))
    (hbv : Benign U.version) (hbr : Benign U.rev) (hbh : Benign U.hash)
    (hrvB : rv = B ++ (gr ++ ('"' :: vr) ++ ('"' :: rr)))
    (htE : t = pv ++ gv ++ ('"' :: vv) ++ ('"' :: rv)) :
      t = pv ++ gv ++ ('"' :: vv) ++
        ('"' :: (B ++ gr ++ ('"' :: vr) ++ ('"' :: (C ++ ga ++ ('"' :: va) ++ ('"' :: ra))))) ∧
      updateNixFile t U opts = pv ++ gv ++ ('"' :: U.version) ++
        ('"' :: (B ++ gr ++ ('"' :: (if opts.skipRevUpdate = some true then vr else U.rev)) ++
          ('"' :: (C ++ ga ++ ('"' :: U.hash) ++ ('"' :: ra))))) ∧
      UniqueMatch [versionName] (updateNixFile t U opts) pv gv U.version
        (B ++ gr ++ ('"' :: (if opts.skipRevUpdate = some true then vr else U.rev)) ++
          ('"' :: (C ++ ga ++ ('"' :: U.hash) ++ ('"' :: ra)))) ∧
      UniqueMatch [revName] (updateNixFile t U opts)
        (pv ++ gv ++ ('"' :: U.version) ++ ('"' :: B)) gr
        (if opts.skipRevUpdate = some true then vr else U.rev)
        (C ++ ga ++ ('"' :: U.hash) ++ ('"' :: ra)) ∧
      UniqueMatch [hashName, sha256Name] (updateNixFile t U opts)
        (pv ++ gv ++ ('"' :: U.version) ++
          ('"' :: (B ++ gr ++ ('"' :: (if opts.skipRevUpdate = some true then vr else U.rev)) ++
            ('"' :: C)))) ga U.hash ra := by
  obtain ⟨hv2ne, hv2q, hv2d, hv2t⟩ := hbv
  obtain ⟨hr2ne, hr2q, hr2d, hr2t⟩ := hbr
  obtain ⟨hh2ne, hh2q, hh2d, hh2t⟩ := hbh
  have hvrne : vr ≠ [] := hUr1.1.2.2.1
  have hvrq : QuoteFree vr := hUr1.1.2.2.2.1
  have hvane : va ≠ [] := hUa1.1.2.2.1
  have hvaq : QuoteFree va := hUa1.1.2.2.2.1
  have htailrR : ∀ n ∈ [revName], hasAssignTail n U.rev = false :=
    fun n hn => hr2t n (by fin_cases hn <;> simp [fieldNames])
  have htailvR : ∀ n ∈ [versionName], hasAssignTail n U.rev = false :=
    fun n hn => hr2t n (by fin_cases hn <;> simp [fieldNames])
  have htailaR : ∀ n ∈ [hashName, sha256Name], hasAssignTail n U.rev = false :=
    fun n hn => hr2t n (by fin_cases hn <;> simp [fieldNames])
  have htailvH : ∀ n ∈ [versionName], hasAssignTail n U.hash = false :=
    fun n hn => hh2t n (by fin_cases hn <;> simp [fieldNames])
  have htailrH : ∀ n ∈ [revName], hasAssignTail n U.hash = false :=
    fun n hn => hh2t n (by fin_cases hn <;> simp [fieldNames])
  have htailaH : ∀ n ∈ [hashName, sha256Name], hasAssignTail n U.hash = false :=
    fun n hn => hh2t n (by fin_cases hn <;> simp [fieldNames])
  have ht0 : t = pv ++ gv ++ ('"' :: vv) ++
      ('"' :: (B ++ gr ++ ('"' :: vr) ++ ('"' :: (C ++ ga ++ ('"' :: va) ++ ('"' :: ra))))) := by
    rw [htE, hrvB, hrrC]
    simp
  by_cases hsk : opts.skipRevUpdate = some true
  · -- rev update skipped
    simp only [if_pos hsk]
    have hE1a : pv ++ gv ++ ('"' :: U.version) ++ ('"' :: rv) =
        (pv ++ gv ++ ('"' :: U.version) ++ ('"' :: (B ++ gr ++ ('"' :: vr) ++ ('"' :: C)))) ++
          ga ++ ('"' :: va) ++ ('"' :: ra) := by
      rw [hrvB, hrrC]
      simp
    have hstage := hash_stage_eq hUa1 hh2d
    have hupd : updateNixFile t U opts =
        (pv ++ gv ++ ('"' :: U.version) ++ ('"' :: (B ++ gr ++ ('"' :: vr) ++ ('"' :: C)))) ++
          ga ++ ('"' :: U.hash) ++ ('"' :: ra) := by
      simp only [updateNixFile]
      rw [hu1, if_pos hsk]
      exact hstage
    have hEfin : updateNixFile t U opts = pv ++ gv ++ ('"' :: U.version) ++
        ('"' :: (B ++ gr ++ ('"' :: vr) ++
          ('"' :: (C ++ ga ++ ('"' :: U.hash) ++ ('"' :: ra))))) := by
      rw [hupd]
      simp
    refine ⟨ht0, hEfin, ?_, ?_, ?_⟩
    · refine uniqueMatch_congr hupd.symm ?_
      refine uniqueMatch_transfer_pos namesOK_version hvane hvaq hh2q htailvH
        (uniqueMatch_congr hE1a hUv1)
        ⟨?_, hUv1.1.2.1, hv2ne, hv2q, hUv1.1.2.2.2.2⟩ (Or.inl ⟨rfl, ?_⟩)
      · simp
      · simp [List.length_append]
        omega
    · refine uniqueMatch_congr hupd.symm ?_
      refine uniqueMatch_transfer_pos namesOK_rev hvane hvaq hh2q htailrH
        (uniqueMatch_congr hE1a hUr1)
        ⟨?_, hUr1.1.2.1, hvrne, hvrq, hUr1.1.2.2.2.2⟩ (Or.inl ⟨rfl, ?_⟩)
      · simp
      · simp [List.length_append]
        omega
    · exact uniqueMatch_congr hupd.symm
        (uniqueMatch_self_replace namesOK_alias (uniqueMatch_congr hE1a hUa1) hh2ne hh2q htailaH)
  · -- rev update performed
    simp only [if_neg hsk]
    have hE1r : pv ++ gv ++ ('"' :: U.version) ++ ('"' :: rv) =
        (pv ++ gv ++ ('"' :: U.version) ++ ('"' :: B)) ++ gr ++ ('"' :: vr) ++ ('"' :: rr) := by
      rw [hrvB]
      simp
    have hfr1 : findAssign [revName] false (pv ++ gv ++ ('"' :: U.version) ++ ('"' :: rv)) =
        some (pv ++ gv ++ ('"' :: U.version) ++ ('"' :: B), gr, vr, rr) :=
      findAssign_of_uniqueMatch (namesSep_single _) hUr1
    have hu2 : replaceField [revName] U.rev (pv ++ gv ++ ('"' :: U.version) ++ ('"' :: rv)) =
        (pv ++ gv ++ ('"' :: U.version) ++ ('"' :: B)) ++ gr ++ ('"' :: U.rev) ++ ('"' :: rr) :=
      replaceField_eq_of_find hfr1 hr2d
    -- state on E2
    have hUv2 : UniqueMatch [versionName]
        ((pv ++ gv ++ ('"' :: U.version) ++ ('"' :: B)) ++ gr ++ ('"' :: U.rev) ++ ('"' :: rr))
        pv gv U.version (B ++ gr ++ ('"' :: U.rev) ++ ('"' :: rr)) := by
      refine uniqueMatch_transfer_pos namesOK_version hvrne hvrq hr2q htailvR
        (uniqueMatch_congr hE1r hUv1)
        ⟨?_, hUv1.1.2.1, hv2ne, hv2q, hUv1.1.2.2.2.2⟩ (Or.inl ⟨rfl, ?_⟩)
      · simp
      · simp [List.length_append]
        omega
    have hbPA2 : BoundaryOK false ((pv ++ gv ++ ('"' :: U.version) ++ ('"' :: B)) ++ gr ++
        ('"' :: U.rev) ++ ('"' :: C)) := by
      have hPA1g : pv ++ gv ++ ('"' :: U.version) ++
          ('"' :: (B ++ gr ++ ('"' :: vr) ++ ('"' :: C))) =
          (pv ++ gv ++ ('"' :: U.version) ++ ('"' :: B) ++ gr ++ ('"' :: vr)) ++ ('"' :: C) := by
        simp
      have hb0 := hPA1g ▸ hUa1.1.2.2.2.2
      exact boundaryOK_append_cons.mpr (boundaryOK_append_cons.mp hb0)
    have hUa2 : UniqueMatch [hashName, sha256Name]
        ((pv ++ gv ++ ('"' :: U.version) ++ ('"' :: B)) ++ gr ++ ('"' :: U.rev) ++ ('"' :: rr))
        ((pv ++ gv ++ ('"' :: U.version) ++ ('"' :: B)) ++ gr ++ ('"' :: U.rev) ++ ('"' :: C))
        ga va ra := by
      refine uniqueMatch_transfer_pos namesOK_alias hvrne hvrq hr2q htailaR
        (uniqueMatch_congr hE1r hUa1)
        ⟨?_, hUa1.1.2.1, hvane, hvaq, hbPA2⟩ (Or.inr ⟨?_, ?_⟩)
      · rw [hrrC]
        simp
      · simp [List.length_append]
        omega
      · simp [List.length_append]
        omega
    have hUr2 : UniqueMatch [revName]
        ((pv ++ gv ++ ('"' :: U.version) ++ ('"' :: B)) ++ gr ++ ('"' :: U.rev) ++ ('"' :: rr))
        (pv ++ gv ++ ('"' :: U.version) ++ ('"' :: B)) gr U.rev rr :=
      uniqueMatch_self_replace namesOK_rev (uniqueMatch_congr hE1r hUr1) hr2ne hr2q htailrR
    have hE2a : (pv ++ gv ++ ('"' :: U.version) ++ ('"' :: B)) ++ gr ++ ('"' :: U.rev) ++
        ('"' :: rr) =
        ((pv ++ gv ++ ('"' :: U.version) ++ ('"' :: B)) ++ gr ++ ('"' :: U.rev) ++ ('"' :: C)) ++
          ga ++ ('"' :: va) ++ ('"' :: ra) := by
      rw [hrrC]
      simp
    have hstage := hash_stage_eq hUa2 hh2d
    have hupd : updateNixFile t U opts =
        ((pv ++ gv ++ ('"' :: U.version) ++ ('"' :: B)) ++ gr ++ ('"' :: U.rev) ++ ('"' :: C)) ++
          ga ++ ('"' :: U.hash) ++ ('"' :: ra) := by
      simp only [updateNixFile]
      rw [hu1, if_neg hsk, hu2]
      exact hstage
    have hEfin : updateNixFile t U opts = pv ++ gv ++ ('"' :: U.version) ++
        ('"' :: (B ++ gr ++ ('"' :: U.rev) ++
          ('"' :: (C ++ ga ++ ('"' :: U.hash) ++ ('"' :: ra))))) := by
      rw [hupd]
      simp
    refine ⟨ht0, hEfin, ?_, ?_, ?_⟩
    · refine uniqueMatch_congr hupd.symm ?_
      refine uniqueMatch_transfer_pos namesOK_version hvane hvaq hh2q htailvH
        (uniqueMatch_congr hE2a hUv2)
        ⟨?_, hUv2.1.2.1, hv2ne, hv2q, hUv2.1.2.2.2.2⟩ (Or.inl ⟨rfl, ?_⟩)
      · simp
      · simp [List.length_append]
        omega
    · refine uniqueMatch_congr hupd.symm ?_
      refine uniqueMatch_transfer_pos namesOK_rev hvane hvaq hh2q htailrH
        (uniqueMatch_congr hE2a hUr2)
        ⟨?_, hUr2.1.2.1, hr2ne, hr2q, hUr2.1.2.2.2.2⟩ (Or.inl ⟨rfl, ?_⟩)
      · simp
      · simp [List.length_append]
        omega
    · refine uniqueMatch_congr hupd.symm ?_
      have := uniqueMatch_self_replace namesOK_alias (uniqueMatch_congr hE2a hUa2)
        hh2ne hh2q htailaH
      exact uniqueMatch_congr rfl (by
        have heq : (pv ++ gv ++ ('"' :: U.version) ++ ('"' :: B)) ++ gr ++ ('"' :: U.rev) ++
            ('"' :: C) =
            pv ++ gv ++ ('"' :: U.version) ++ ('"' :: (B ++ gr ++ ('"' :: U.rev) ++ ('"' :: C))) := by
          simp
        exact heq ▸ this)

/-- The full update pipeline on a well-formed text: with unique version, rev
and hash/sha256 matches in that textual order and benign new values, the
update rewrites exactly the three designated values (the revision only when
`skipRevUpdate` is not set), preserving every other byte, and the designated
matches of the result carry the new values. -/
theorem update_pipeline {t : List Char} (U : NixUpdateData) (opts : UpdateOptions)
    {pv gv vv rv pr gr vr rr pa ga va ra : List Char}
    (hUv : UniqueMatch [versionName] t pv gv vv rv)
    (hUr : UniqueMatch [revName] t pr gr vr rr)
    (hUa : UniqueMatch [hashName, sha256Name] t pa ga va ra)
    (ho1 : pv.length + gv.length + vv.length + 2 ≤ pr.length)
    (ho2 : pr.length + gr.length + vr.length + 2 ≤ pa.length)
    (hbv : Benign U.version) (hbr : Benign U.rev) (hbh : Benign U.hash) :
    ∃ B C,
      t = pv ++ gv ++ ('"' :: vv) ++
        ('"' :: (B ++ gr ++ ('"' :: vr) ++ ('"' :: (C ++ ga ++ ('"' :: va) ++ ('"' :: ra))))) ∧
      updateNixFile t U opts = pv ++ gv ++ ('"' :: U.version) ++
        ('"' :: (B ++ gr ++ ('"' :: (if opts.skipRevUpdate = some true then vr else U.rev)) ++
          ('"' :: (C ++ ga ++ ('"' :: U.hash) ++ ('"' :: ra))))) ∧
      UniqueMatch [versionName] (updateNixFile t U opts) pv gv U.version
        (B ++ gr ++ ('"' :: (if opts.skipRevUpdate = some true then vr else U.rev)) ++
          ('"' :: (C ++ ga ++ ('"' :: U.hash) ++ ('"' :: ra)))) ∧
      UniqueMatch [revName] (updateNixFile t U opts)
        (pv ++ gv ++ ('"' :: U.version) ++ ('"' :: B)) gr
        (if opts.skipRevUpdate = some true then vr else U.rev)
        (C ++ ga ++ ('"' :: U.hash) ++ ('"' :: ra)) ∧
      UniqueMatch [hashName, sha256Name] (updateNixFile t U opts)
        (pv ++ gv ++ ('"' :: U.version) ++
          ('"' :: (B ++ gr ++ ('"' :: (if opts.skipRevUpdate = some true then vr else U.rev)) ++
            ('"' :: C)))) ga U.hash ra := by
  have htE : t = pv ++ gv ++ ('"' :: vv) ++ ('"' :: rv) := hUv.1.1
  obtain ⟨B, hprB, hrvB⟩ := carve (t := t)
    (X := pv ++ gv ++ ('"' :: vv) ++ ['"']) (Y := rv)
    (Z := pr) (W := gr ++ ('"' :: vr) ++ ('"' :: rr))
    (by simp [htE]) (by simp [hUr.1.1]) (by simp [List.length_append]; omega)
  obtain ⟨C, hpaC, hrrC⟩ := carve (t := t)
    (X := pr ++ gr ++ ('"' :: vr) ++ ['"']) (Y := rr)
    (Z := pa) (W := ga ++ ('"' :: va) ++ ('"' :: ra))
    (by simp [hUr.1.1]) (by simp [hUa.1.1]) (by simp [List.length_append]; omega)
  have lB : pr.length = pv.length + gv.length + vv.length + 2 + B.length := by
    rw [hprB]
    simp [List.length_append]
    omega
  have lC : pa.length = pr.length + gr.length + vr.length + 2 + C.length := by
    rw [hpaC]
    simp [List.length_append]
    omega
  have hvfacts := hbv
  obtain ⟨hv2ne, hv2q, hv2d, hv2t⟩ := hvfacts
  obtain ⟨hr2ne, hr2q, hr2d, hr2t⟩ := hbr
  obtain ⟨hh2ne, hh2q, hh2d, hh2t⟩ := hbh
  have hvvne : vv ≠ [] := hUv.1.2.2.1
  have hvvq : QuoteFree vv := hUv.1.2.2.2.1
  have hvrne : vr ≠ [] := hUr.1.2.2.1
  have hvrq : QuoteFree vr := hUr.1.2.2.2.1
  have hvane : va ≠ [] := hUa.1.2.2.1
  have hvaq : QuoteFree va := hUa.1.2.2.2.1
  have htailv : ∀ n ∈ [versionName], hasAssignTail n U.version = false :=
    fun n hn => hv2t n (by fin_cases hn <;> simp [fieldNames])
  have htailr : ∀ n ∈ [revName], hasAssignTail n U.version = false :=
    fun n hn => hv2t n (by fin_cases hn <;> simp [fieldNames])
  have htaila : ∀ n ∈ [hashName, sha256Name], hasAssignTail n U.version = false :=
    fun n hn => hv2t n (by fin_cases hn <;> simp [fieldNames])
  -- step 1: replace the version value
  have hfv : findAssign [versionName] false t = some (pv, gv, vv, rv) :=
    findAssign_of_uniqueMatch (namesSep_single _) hUv
  have hu1 : replaceField [versionName] U.version t =
      pv ++ gv ++ ('"' :: U.version) ++ ('"' :: rv) :=
    replaceField_eq_of_find hfv hv2d
  have hUvT : UniqueMatch [versionName] (pv ++ gv ++ ('"' :: vv) ++ ('"' :: rv)) pv gv vv rv :=
    uniqueMatch_congr htE hUv
  have hUrT : UniqueMatch [revName] (pv ++ gv ++ ('"' :: vv) ++ ('"' :: rv)) pr gr vr rr :=
    uniqueMatch_congr htE hUr
  have hUaT : UniqueMatch [hashName, sha256Name] (pv ++ gv ++ ('"' :: vv) ++ ('"' :: rv))
      pa ga va ra := uniqueMatch_congr htE hUa
  -- state after step 1, on the explicit text E1
  have hUv1 : UniqueMatch [versionName] (pv ++ gv ++ ('"' :: U.version) ++ ('"' :: rv))
      pv gv U.version rv :=
    uniqueMatch_self_replace namesOK_version hUvT hv2ne hv2q htailv
  have hbPR1 : BoundaryOK false (pv ++ gv ++ ('"' :: U.version) ++ ('"' :: B)) := by
    have hb0 : BoundaryOK false ((pv ++ gv ++ ('"' :: vv)) ++ ('"' :: B)) := by
      have : pr = (pv ++ gv ++ ('"' :: vv)) ++ ('"' :: B) := by
        rw [hprB]
        simp
      exact this ▸ hUr.1.2.2.2.2
    exact boundaryOK_append_cons.mpr (boundaryOK_append_cons.mp hb0)
  have hUr1 : UniqueMatch [revName] (pv ++ gv ++ ('"' :: U.version) ++ ('"' :: rv))
      (pv ++ gv ++ ('"' :: U.version) ++ ('"' :: B)) gr vr rr := by
    refine uniqueMatch_transfer_pos namesOK_rev hvvne hvvq hv2q htailr hUrT
      ⟨?_, hUr.1.2.1, hvrne, hvrq, hbPR1⟩ (Or.inr ⟨?_, ?_⟩)
    · rw [hrvB]
      simp
    · simp [List.length_append]
      omega
    · simp [List.length_append]
      omega
  have hbPA : BoundaryOK false ((pr ++ gr ++ ('"' :: vr)) ++ ('"' :: C)) := by
    have : pa = (pr ++ gr ++ ('"' :: vr)) ++ ('"' :: C) := by
      rw [hpaC]
      simp
    exact this ▸ hUa.1.2.2.2.2
  have hbPA1 : BoundaryOK false (pv ++ gv ++ ('"' :: U.version) ++
      ('"' :: (B ++ gr ++ ('"' :: vr) ++ ('"' :: C)))) := by
    have he : pv ++ gv ++ ('"' :: U.version) ++ ('"' :: (B ++ gr ++ ('"' :: vr) ++ ('"' :: C))) =
        (pv ++ gv ++ ('"' :: U.version) ++ ('"' :: B) ++ gr ++ ('"' :: vr)) ++ ('"' :: C) := by
      simp
    rw [he]
    exact boundaryOK_append_cons.mpr (boundaryOK_append_cons.mp hbPA)
  have hUa1 : UniqueMatch [hashName, sha256Name]
      (pv ++ gv ++ ('"' :: U.version) ++ ('"' :: rv))
      (pv ++ gv ++ ('"' :: U.version) ++ ('"' :: (B ++ gr ++ ('"' :: vr) ++ ('"' :: C))))
      ga va ra := by
    refine uniqueMatch_transfer_pos namesOK_alias hvvne hvvq hv2q htaila hUaT
      ⟨?_, hUa.1.2.1, hvane, hvaq, hbPA1⟩ (Or.inr ⟨?_, ?_⟩)
    · rw [hrvB, hrrC]
      simp
    · simp [List.length_append]
      omega
    · simp [List.length_append]
      omega
  exact ⟨B, C, update_pipeline_rest U opts hUv1 hUr1 hUa1 hu1 hrrC
    ⟨hv2ne, hv2q, hv2d, hv2t⟩ ⟨hr2ne, hr2q, hr2d, hr2t⟩ ⟨hh2ne, hh2q, hh2d, hh2t⟩
    hrvB htE⟩

/-! ### Vendor-hash scanning -/

theorem lineClear_cons (ok : Bool) (c : Char) (cs : List Char) :
    lineClear ok (c :: cs) =
      lineClear (if c = '\n' then true else if c = '#' then false else ok) cs := rfl

theorem lastLine_no_break {p : List Char} (h : '\n' ∉ p) : lastLine p = p := by
  induction p with
  | nil => rfl
  | cons c cs ih =>
    simp only [List.mem_cons, not_or] at h
    rw [lastLine, if_neg h.2, if_neg (fun hc => h.1 hc.symm)]

theorem lineClear_iff (p : List Char) : ∀ ok : Bool,
    lineClear ok p = true ↔
      (('\n' ∈ p ∧ '#' ∉ lastLine p) ∨ ('\n' ∉ p ∧ ok = true ∧ '#' ∉ p)) := by
  induction p with
  | nil =>
    intro ok
    simp [lineClear, lastLine]
  | cons c cs ih =>
    intro ok
    rw [lineClear_cons, ih]
    by_cases hnl : c = '\n'
    · subst hnl
      rw [if_pos rfl]
      by_cases hm : '\n' ∈ cs
      · simp [lastLine, hm]
      · simp [lastLine, hm]
    · have hnl' : ¬ '\n' = c := fun h => hnl h.symm
      by_cases hsh : c = '#'
      · subst hsh
        rw [if_neg hnl, if_pos rfl]
        by_cases hm : '\n' ∈ cs
        · simp [lastLine, hm, hnl']
        · simp [lastLine, hm, hnl']
      · have hsh' : ¬ '#' = c := fun h => hsh h.symm
        rw [if_neg hnl, if_neg hsh]
        by_cases hm : '\n' ∈ cs
        · simp [lastLine, hm, hnl']
        · simp [lastLine, hm, hnl', hsh']

theorem vendorScan_iff (s : List Char) : ∀ lineOK pw : Bool,
    vendorScan lineOK pw s = true ↔
      ∃ p q, s = p ++ q ∧ vendorAssignAt q = true ∧ BoundaryOK pw p ∧
        lineClear lineOK p = true := by
  induction s with
  | nil =>
    intro lineOK pw
    constructor
    · intro h
      exact absurd h (by rw [vendorScan]; simp)
    · rintro ⟨p, q, hpq, hq, -, -⟩
      obtain ⟨rfl, rfl⟩ := List.append_eq_nil.mp hpq.symm
      exact absurd hq (by decide)
  | cons c cs ih =>
    intro lineOK pw
    rw [vendorScan, Bool.or_eq_true, Bool.and_eq_true, Bool.and_eq_true, ih]
    constructor
    · rintro (⟨⟨hok, hpw⟩, hva⟩ | ⟨p, q, hpq, hq, hb, hl⟩)
      · refine ⟨[], c :: cs, rfl, hva, boundaryOK_nil.mpr ?_, by simpa [lineClear] using hok⟩
        simpa using hpw
      · exact ⟨c :: p, q, by rw [hpq]; rfl, hq, boundaryOK_cons.mpr hb,
          by rw [lineClear_cons]; exact hl⟩
    · rintro ⟨p, q, hpq, hq, hb, hl⟩
      cases p with
      | nil =>
        left
        refine ⟨⟨by simpa [lineClear] using hl, ?_⟩, by rw [← List.nil_append q, ← hpq] at hq; exact hq⟩
        simp [boundaryOK_nil.mp hb]
      | cons d p' =>
        right
        have hcd : c = d ∧ cs = p' ++ q := by
          have := hpq
          simp only [List.cons_append, List.cons.injEq] at this
          exact this
        exact ⟨p', q, hcd.2, hq, by rw [← hcd.1] at hb; exact boundaryOK_cons.mp hb,
          by rw [← hcd.1, lineClear_cons] at hl; exact hl⟩

/-- `PATTERNS.vendorHash.test` holds exactly when some split of the text puts
a `vendorHash\s*=` assignment with a word boundary at a position whose
enclosing line holds no `#` before it. -/
theorem vendorHashTest_iff (s : List Char) :
    vendorHashTest s = true ↔
      ∃ p q, s = p ++ q ∧ vendorAssignAt q = true ∧ BoundaryOK false p ∧
        '#' ∉ lastLine p := by
  rw [vendorHashTest, vendorScan_iff]
  constructor
  · rintro ⟨p, q, h1, h2, h3, h4⟩
    refine ⟨p, q, h1, h2, h3, ?_⟩
    rcases (lineClear_iff p true).mp h4 with ⟨-, h⟩ | ⟨hnl, -, h⟩
    · exact h
    · rwa [lastLine_no_break hnl]
  · rintro ⟨p, q, h1, h2, h3, h4⟩
    refine ⟨p, q, h1, h2, h3, (lineClear_iff p true).mpr ?_⟩
    by_cases hm : '\n' ∈ p
    · exact Or.inl ⟨hm, h4⟩
    · exact Or.inr ⟨hm, rfl, by rwa [lastLine_no_break hm] at h4⟩

/-! ### Unfolding the parser -/

theorem parseNixFile_eq_ok {content vo vq vv vr va : List Char}
    {po go ro pq gq rq pr gr rr pv gv rv pa ga ra : List Char}
    (hfo : findAssign [ownerName] false content = some (po, go, vo, ro))
    (hfq : findAssign [repoName] false content = some (pq, gq, vq, rq))
    (hvo : validateGitHubOwner vo = .ok ())
    (hvq : validateGitHubRepo vq = .ok ())
    (hfr : findAssign [revName] false content = some (pr, gr, vr, rr))
    (hfv : findAssign [versionName] false content = some (pv, gv, vv, rv))
    (hfa : findAssign [hashName, sha256Name] false content = some (pa, ga, va, ra)) :
    parseNixFile content = .ok ⟨vo, vq, vv, vr, va,
      includesSub vr "${version}".toList, vendorHashTest content⟩ := by
  simp [parseNixFile, extractValue, hfo, hfq, hvo, hvq, hfr, hfv, hfa]

theorem parseNixFile_err_owner {content : List Char}
    (h : findAssign [ownerName] false content = none) :
    parseNixFile content = .error (couldNotFindMsg ownerName) := by
  simp [parseNixFile, extractValue, h]

theorem parseNixFile_err_repo {content po go vo ro : List Char}
    (hfo : findAssign [ownerName] false content = some (po, go, vo, ro))
    (h : findAssign [repoName] false content = none) :
    parseNixFile content = .error (couldNotFindMsg repoName) := by
  simp [parseNixFile, extractValue, hfo, h]

theorem parseNixFile_err_rev {content po go vo ro pq gq vq rq : List Char}
    (hfo : findAssign [ownerName] false content = some (po, go, vo, ro))
    (hfq : findAssign [repoName] false content = some (pq, gq, vq, rq))
    (hvo : validateGitHubOwner vo = .ok ())
    (hvq : validateGitHubRepo vq = .ok ())
    (h : findAssign [revName] false content = none) :
    parseNixFile content = .error (couldNotFindMsg revName) := by
  simp [parseNixFile, extractValue, hfo, hfq, hvo, hvq, h]

theorem parseNixFile_err_version {content po go vo ro pq gq vq rq pr gr vr rr : List Char}
    (hfo : findAssign [ownerName] false content = some (po, go, vo, ro))
    (hfq : findAssign [repoName] false content = some (pq, gq, vq, rq))
    (hvo : validateGitHubOwner vo = .ok ())
    (hvq : validateGitHubRepo vq = .ok ())
    (hfr : findAssign [revName] false content = some (pr, gr, vr, rr))
    (h : findAssign [versionName] false content = none) :
    parseNixFile content = .error (couldNotFindMsg versionName) := by
  simp [parseNixFile, extractValue, hfo, hfq, hvo, hvq, hfr, h]

theorem parseNixFile_err_hash {content po go vo ro pq gq vq rq pr gr vr rr pv gv vv rv : List Char}
    (hfo : findAssign [ownerName] false content = some (po, go, vo, ro))
    (hfq : findAssign [repoName] false content = some (pq, gq, vq, rq))
    (hvo : validateGitHubOwner vo = .ok ())
    (hvq : validateGitHubRepo vq = .ok ())
    (hfr : findAssign [revName] false content = some (pr, gr, vr, rr))
    (hfv : findAssign [versionName] false content = some (pv, gv, vv, rv))
    (h : findAssign [hashName, sha256Name] false content = none) :
    parseNixFile content = .error (couldNotFindMsg "hash or sha256".toList) := by
  simp [parseNixFile, extractValue, hfo, hfq, hvo, hvq, hfr, hfv, h]

theorem parseNixFile_vendor {content : List Char} {d : NixFileData}
    (h : parseNixFile content = .ok d) : d.hasVendorHash = vendorHashTest content := by
  unfold parseNixFile at h
  repeat' split at h
  all_goals try (cases h)
  all_goals rfl

/-! ### A disjoint match survives the update -/

/-- A unique field match lying entirely before the version span survives all
three replacement stages of the update: the updated text still finds exactly
it, with the same prefix, shape part and value. -/
theorem passenger_preserved {N : List (List Char)} (hok : NamesOK N) (hsep : NamesSep N)
    (hsub : ∀ n ∈ N, n ∈ fieldNames) (U : NixUpdateData)
    {t u po go vo ro pv gv vv B gr vr C ga va ra RR : List Char}
    (hUo : UniqueMatch N t po go vo ro)
    (hoN : po.length + go.length + vo.length + 2 ≤ pv.length)
    (hvv : vv ≠ []) (hvvq : QuoteFree vv)
    (hvr : vr ≠ []) (hvrq : QuoteFree vr)
    (hva : va ≠ []) (hvaq : QuoteFree va)
    (hbv : Benign U.version) (hbr : Benign U.rev) (hbh : Benign U.hash)
    (hRR : RR = vr ∨ RR = U.rev)
    (ht : t = pv ++ gv ++ ('"' :: vv) ++
      ('"' :: (B ++ gr ++ ('"' :: vr) ++ ('"' :: (C ++ ga ++ ('"' :: va) ++ ('"' :: ra))))))
    (hu : u = pv ++ gv ++ ('"' :: U.version) ++
      ('"' :: (B ++ gr ++ ('"' :: RR) ++
        ('"' :: (C ++ ga ++ ('"' :: U.hash) ++ ('"' :: ra)))))) :
    ∃ D, findAssign N false u = some (po, go, vo, D) := by
  obtain ⟨hbvne, hbvq, hbvd, hbvt⟩ := hbv
  obtain ⟨hbrne, hbrq, hbrd, hbrt⟩ := hbr
  obtain ⟨hbhne, hbhq, hbhd, hbht⟩ := hbh
  have htv : ∀ n ∈ N, hasAssignTail n U.version = false := fun n hn => hbvt n (hsub n hn)
  have htr : ∀ n ∈ N, hasAssignTail n U.rev = false := fun n hn => hbrt n (hsub n hn)
  have hth : ∀ n ∈ N, hasAssignTail n U.hash = false := fun n hn => hbht n (hsub n hn)
  obtain ⟨M, hpvM, hroM⟩ := carve (t := t)
    (X := po ++ go ++ ('"' :: vo) ++ ['"']) (Y := ro)
    (Z := pv)
    (W := gv ++ ('"' :: vv) ++
      ('"' :: (B ++ gr ++ ('"' :: vr) ++ ('"' :: (C ++ ga ++ ('"' :: va) ++ ('"' :: ra))))))
    (by simpa using hUo.1.1) (by rw [ht]; simp) (by simp [List.length_append]; omega)
  have hu0 : ∀ q h x s, IsMatchFrom N false (pv ++ gv ++ ('"' :: vv) ++
      ('"' :: (B ++ gr ++ ('"' :: vr) ++ ('"' :: (C ++ ga ++ ('"' :: va) ++ ('"' :: ra))))))
      q h x s → q.length = po.length := by
    intro q h x s hm
    rw [← ht] at hm
    exact hUo.2 q h x s hm
  have hu1 : ∀ q h x s, IsMatchFrom N false (pv ++ gv ++ ('"' :: U.version) ++
      ('"' :: (B ++ gr ++ ('"' :: vr) ++ ('"' :: (C ++ ga ++ ('"' :: va) ++ ('"' :: ra))))))
      q h x s → q.length = po.length :=
    transfer_unique_left hok hvv hvvq hbvq htv hu0 (by simp [List.length_append]; omega)
  have he1 : pv ++ gv ++ ('"' :: U.version) ++
      ('"' :: (B ++ gr ++ ('"' :: vr) ++ ('"' :: (C ++ ga ++ ('"' :: va) ++ ('"' :: ra))))) =
      (pv ++ gv ++ ('"' :: U.version) ++ ('"' :: B) ++ gr) ++ ('"' :: vr) ++
        ('"' :: (C ++ ga ++ ('"' :: va) ++ ('"' :: ra))) := by
    simp
  rw [he1] at hu1
  have hu2 : ∀ q h x s, IsMatchFrom N false
      ((pv ++ gv ++ ('"' :: U.version) ++ ('"' :: B) ++ gr) ++ ('"' :: RR) ++
        ('"' :: (C ++ ga ++ ('"' :: va) ++ ('"' :: ra)))) q h x s →
      q.length = po.length := by
    rcases hRR with rfl | rfl
    · exact hu1
    · exact transfer_unique_left hok hvr hvrq hbrq htr hu1 (by simp [List.length_append]; omega)
  have he2 : (pv ++ gv ++ ('"' :: U.version) ++ ('"' :: B) ++ gr) ++ ('"' :: RR) ++
      ('"' :: (C ++ ga ++ ('"' :: va) ++ ('"' :: ra))) =
      ((pv ++ gv ++ ('"' :: U.version) ++ ('"' :: B) ++ gr) ++ ('"' :: RR) ++ ('"' :: C) ++ ga) ++
        ('"' :: va) ++ ('"' :: ra) := by
    simp
  rw [he2] at hu2
  have hu3 : ∀ q h x s, IsMatchFrom N false
      (((pv ++ gv ++ ('"' :: U.version) ++ ('"' :: B) ++ gr) ++ ('"' :: RR) ++ ('"' :: C) ++ ga) ++
        ('"' :: U.hash) ++ ('"' :: ra)) q h x s → q.length = po.length :=
    transfer_unique_left hok hva hvaq hbhq hth hu2 (by simp [List.length_append]; omega)
  have huE : u = ((pv ++ gv ++ ('"' :: U.version) ++ ('"' :: B) ++ gr) ++ ('"' :: RR) ++
      ('"' :: C) ++ ga) ++ ('"' :: U.hash) ++ ('"' :: ra) := by
    rw [hu]
    simp
  have huD : u = po ++ go ++ ('"' :: vo) ++ ('"' :: (M ++ gv ++ ('"' :: U.version) ++
      ('"' :: (B ++ gr ++ ('"' :: RR) ++ ('"' :: (C ++ ga ++ ('"' :: U.hash) ++ ('"' :: ra))))))) := by
    rw [hu, hpvM]
    simp
  refine ⟨M ++ gv ++ ('"' :: U.version) ++
      ('"' :: (B ++ gr ++ ('"' :: RR) ++ ('"' :: (C ++ ga ++ ('"' :: U.hash) ++ ('"' :: ra))))),
    findAssign_of_uniqueMatch hsep
      ⟨⟨huD, hUo.1.2.1, hUo.1.2.2.1, hUo.1.2.2.2.1, hUo.1.2.2.2.2⟩, ?_⟩⟩
  intro q h x s hm
  rw [huE] at hm
  exact hu3 q h x s hm

/-! ### The identifier grammar -/

theorem alnum_or_hyphen {x : Char} :
    alnumChar x = true ↔ ((alnumChar x = true ∨ x = '-') ∧ ¬ x = '-') := by
  constructor
  · intro h
    refine ⟨Or.inl h, fun he => ?_⟩
    subst he
    exact absurd h (by decide)
  · rintro ⟨h1 | h2, hne⟩
    · exact h1
    · exact absurd h2 hne

theorem ownerPatternTest_iff (s : List Char) :
    ownerPatternTest s = true ↔
      (s ≠ [] ∧ s.length ≤ 39 ∧ (∀ c ∈ s, alnumChar c = true ∨ c = '-') ∧
        s.head? ≠ some '-' ∧ s.getLast? ≠ some '-') := by
  cases s with
  | nil => simp [ownerPatternTest]
  | cons c rest =>
    rw [ownerPatternTest]
    cases rest with
    | nil =>
      constructor
      · intro h
        have hc : alnumChar c = true := by simpa using h
        have hcne : ¬ c = '-' := (alnum_or_hyphen.mp hc).2
        refine ⟨by simp, by simp, ?_, by simpa using hcne, by simpa using hcne⟩
        intro x hx
        rcases List.mem_singleton.mp hx with rfl
        exact Or.inl hc
      · rintro ⟨-, -, hall, hh, -⟩
        have hc : alnumChar c = true :=
          alnum_or_hyphen.mpr ⟨hall c (by simp), by simpa using hh⟩
        simp [hc]
    | cons d rest' =>
      have hne : d :: rest' ≠ [] := by simp
      have hsplit : ∀ x : Char, x ∈ d :: rest' ↔
          (x ∈ (d :: rest').dropLast ∨ x = (d :: rest').getLast hne) := by
        intro x
        constructor
        · intro hx
          rw [← List.dropLast_append_getLast hne] at hx
          simpa using hx
        · intro hx
          rw [← List.dropLast_append_getLast hne]
          simpa using hx
      rw [List.getLast?_eq_getLast _ hne,
        show (d :: rest').isEmpty = false from rfl, Bool.false_or]
      simp only [Bool.and_eq_true, decide_eq_true_eq, List.all_eq_true, Bool.or_eq_true,
        decide_eq_true_eq]
      constructor
      · rintro ⟨hc, ⟨hlen, hmid⟩, hlast⟩
        have hcne : ¬ c = '-' := (alnum_or_hyphen.mp hc).2
        have hlne : ¬ (d :: rest').getLast hne = '-' := (alnum_or_hyphen.mp hlast).2
        refine ⟨by simp, by simpa using hlen, ?_, by simpa using hcne, ?_⟩
        · intro x hx
          rcases List.mem_cons.mp hx with rfl | hx'
          · exact Or.inl hc
          · rcases (hsplit x).mp hx' with hx'' | rfl
            · exact hmid x hx''
            · exact Or.inl hlast
        · rw [List.getLast?_cons_cons, List.getLast?_eq_getLast _ hne]
          simpa using hlne
      · rintro ⟨-, hlen, hall, hh, hl⟩
        have hc : alnumChar c = true :=
          alnum_or_hyphen.mpr ⟨hall c (by simp), by simpa using hh⟩
        have hlmem : (d :: rest').getLast hne ∈ c :: d :: rest' :=
          List.mem_cons_of_mem c (List.getLast_mem hne)
        have hl' : ¬ (d :: rest').getLast hne = '-' := by
          rw [List.getLast?_cons_cons, List.getLast?_eq_getLast _ hne] at hl
          simpa using hl
        have hlast : alnumChar ((d :: rest').getLast hne) = true :=
          alnum_or_hyphen.mpr ⟨hall _ hlmem, hl'⟩
        refine ⟨hc, ⟨by simpa using hlen, ?_⟩, hlast⟩
        intro x hx
        exact hall x (List.mem_cons_of_mem c ((hsplit x).mpr (Or.inl hx)))

theorem validateGitHubOwner_ok_iff (s : List Char) :
    validateGitHubOwner s = .ok () ↔ ownerPatternTest s = true := by
  unfold validateGitHubOwner
  by_cases h : ownerPatternTest s <;> simp [h]

theorem repoPatternTest_iff (s : List Char) :
    repoPatternTest s = true ↔
      (s ≠ [] ∧ ∀ c ∈ s, alnumChar c = true ∨ c = '-' ∨ c = '_' ∨ c = '.') := by
  have hiff : ∀ l : List Char, l.isEmpty = false ↔ l ≠ [] := by
    intro l
    cases l <;> simp
  rw [repoPatternTest, Bool.and_eq_true, List.all_eq_true]
  simp only [Bool.not_eq_true', Bool.or_eq_true, decide_eq_true_eq, hiff]
  constructor
  · rintro ⟨h1, h2⟩
    refine ⟨h1, fun c hc => ?_⟩
    have := h2 c hc
    tauto
  · rintro ⟨h1, h2⟩
    refine ⟨h1, fun c hc => ?_⟩
    have := h2 c hc
    tauto

theorem validateGitHubRepo_ok_iff (s : List Char) :
    validateGitHubRepo s = .ok () ↔
      (repoPatternTest s = true ∧ endsWithDotGit s = false ∧ s.length ≤ 100) := by
  unfold validateGitHubRepo
  by_cases h1 : repoPatternTest s <;> by_cases h2 : endsWithDotGit s <;>
    by_cases h3 : 100 < s.length <;> simp [h1, h2, h3] <;> omega

/-- A text already carrying the update's values at its unique matches is a
fixed point of the update. -/
theorem update_fixed (U : NixUpdateData) (opts : UpdateOptions)
    {E P1 G1 R1 P2 G2 V2 R2 P3 G3 R3 : List Char}
    (hUv : UniqueMatch [versionName] E P1 G1 U.version R1)
    (hUr : UniqueMatch [revName] E P2 G2 V2 R2)
    (hUa : UniqueMatch [hashName, sha256Name] E P3 G3 U.hash R3)
    (hV2 : opts.skipRevUpdate = some true ∨ V2 = U.rev)
    (hbv : '$' ∉ U.version) (hbr : '$' ∉ U.rev) (hbh : '$' ∉ U.hash) :
    updateNixFile E U opts = E := by
  have hu1 : replaceField [versionName] U.version E = E :=
    (replaceField_eq_of_find (findAssign_of_uniqueMatch (namesSep_single _) hUv) hbv).trans
      hUv.1.1.symm
  have hstage : (if hashTest E then replaceField [hashName] U.hash E
      else replaceField [sha256Name] U.hash E) = E :=
    (hash_stage_eq hUa hbh).trans hUa.1.1.symm
  simp only [updateNixFile]
  rw [hu1]
  rcases hV2 with hsk | rfl
  · rw [if_pos hsk]
    exact hstage
  · by_cases hsk : opts.skipRevUpdate = some true
    · rw [if_pos hsk]
      exact hstage
    · rw [if_neg hsk,
        (replaceField_eq_of_find (findAssign_of_uniqueMatch (namesSep_single _) hUr) hbr).trans
          hUr.1.1.symm]
      exact hstage

/-! ## The claims -/

/-- C3: boundary matching — every assignment the lookup locates spells one of
the wanted names followed by `\s*=\s*` and starts at a word boundary, so a
lookup or replacement never matches a field name that merely contains the
wanted name; concretely, with `hash` and `outputHash` both present parsing
extracts the `hash` value and updating rewrites only the `hash` value,
leaving the `outputHash` assignment byte-for-byte unchanged, and a `sha256`
lookup does not match `cargoSha256`. -/
theorem claim_C3_boundary_matching :
    (∀ (names : List (List Char)) (s p g v r : List Char),
      findAssign names false s = some (p, g, v, r) →
        ShapeAny names g ∧ BoundaryOK false p) ∧
    extractValue "hash = \"aaa\"; outputHash = \"bbb\";".toList [hashName, sha256Name]
      "hash or sha256".toList = .ok "aaa".toList ∧
    updateNixFile "hash = \"aaa\"; outputHash = \"bbb\";".toList
      ⟨"v".toList, "r".toList, "ccc".toList⟩ {} =
      "hash = \"ccc\"; outputHash = \"bbb\";".toList ∧
    extractValue "cargoSha256 = \"xxx\";".toList [sha256Name] sha256Name =
      .error (couldNotFindMsg sha256Name) := by
  refine ⟨?_, rfl, rfl, rfl⟩
  intro names s p g v r hf
  have h := (findAssign_sound hf).1
  exact ⟨h.2.1, h.2.2.2.2⟩

/-- C6: the update decides the rewritten field by testing the current text:
a unique boundary-matched alias assignment shaped on `hash` makes the
presence test true (and shaped on `sha256` false), the selection stage then
rewrites exactly that assignment's value, and with both `hash` and `sha256`
present the `hash` value is replaced while the `sha256` assignment is
unchanged. -/
theorem claim_C6_hash_selection :
    (∀ t : List Char, hashTest t = (findAssign [hashName] false t).isSome) ∧
    (∀ t pa ga va ra : List Char, UniqueMatch [hashName, sha256Name] t pa ga va ra →
      Shape hashName ga → hashTest t = true) ∧
    (∀ t pa ga va ra : List Char, UniqueMatch [hashName, sha256Name] t pa ga va ra →
      Shape sha256Name ga → hashTest t = false) ∧
    (∀ t pa ga va ra w : List Char, UniqueMatch [hashName, sha256Name] t pa ga va ra →
      '$' ∉ w →
      (if hashTest t then replaceField [hashName] w t else replaceField [sha256Name] w t) =
        pa ++ ga ++ ('"' :: w) ++ ('"' :: ra)) ∧
    updateNixFile "version = \"1\"; rev = \"r\"; hash = \"h\"; sha256 = \"s\";".toList
      ⟨"2".toList, "q".toList, "z".toList⟩ {} =
      "version = \"2\"; rev = \"q\"; hash = \"z\"; sha256 = \"s\";".toList := by
  refine ⟨fun t => rfl, ?_, ?_, ?_, rfl⟩
  · intro t pa ga va ra hU hsh
    exact hashTest_true_of_hash hU hsh
  · intro t pa ga va ra hU hsh
    exact hashTest_false_of_sha hU hsh
  · intro t pa ga va ra w hU hd
    exact hash_stage_eq hU hd

/-- C10: an assignment with an empty quoted value is never matched — every
located match carries a non-empty value — so the parser reports such a field
as missing even though the assignment is present, and the updater leaves
`hash = ""` untouched, rewriting a non-empty `sha256` field instead. -/
theorem claim_C10_empty_value_absent :
    (∀ (names : List (List Char)) (content p g v r : List Char),
      findAssign names false content = some (p, g, v, r) → v ≠ []) ∧
    (∀ (content : List Char) (names : List (List Char)) (e v : List Char),
      extractValue content names e = .ok v → v ≠ []) ∧
    parseNixFile "owner = \"o\"; repo = \"r\"; version = \"1\"; rev = \"c\"; hash = \"\";".toList =
      .error (couldNotFindMsg "hash or sha256".toList) ∧
    updateNixFile "version = \"1\"; rev = \"c\"; hash = \"\"; sha256 = \"abc\";".toList
      ⟨"2".toList, "d".toList, "zzz".toList⟩ {} =
      "version = \"2\"; rev = \"d\"; hash = \"\"; sha256 = \"zzz\";".toList := by
  refine ⟨?_, ?_, rfl, rfl⟩
  · intro names content p g v r hf
    exact (findAssign_sound hf).1.2.2.1
  · intro content names e v h
    cases hf : findAssign names false content with
    | none => simp [extractValue, hf] at h
    | some x =>
      obtain ⟨p, g, w, r⟩ := x
      simp only [extractValue, hf] at h
      injection h with h'
      rw [← h']
      exact (findAssign_sound hf).1.2.2.1

/-- C4 counterexample: with owner and repository present but version and
revision both missing, the parser's error names `rev`, not `version`. -/
theorem claim_C4_counterexample :
    parseNixFile "owner = \"o\"; repo = \"r\";".toList =
      .error (couldNotFindMsg revName) ∧
    couldNotFindMsg revName ≠ couldNotFindMsg versionName := by
  exact ⟨rfl, by decide⟩

/-- C4 (amended): the parser locates fields in the order owner, repository,
(validation of both), revision, version, then hash/sha256, and the error it
raises names the first field in that order that is missing. -/
theorem claim_C4_extraction_order (content : List Char) :
    (findAssign [ownerName] false content = none →
      parseNixFile content = .error (couldNotFindMsg ownerName)) ∧
    (∀ po go vo ro, findAssign [ownerName] false content = some (po, go, vo, ro) →
      findAssign [repoName] false content = none →
      parseNixFile content = .error (couldNotFindMsg repoName)) ∧
    (∀ po go vo ro pq gq vq rq,
      findAssign [ownerName] false content = some (po, go, vo, ro) →
      findAssign [repoName] false content = some (pq, gq, vq, rq) →
      validateGitHubOwner vo = .ok () → validateGitHubRepo vq = .ok () →
      findAssign [revName] false content = none →
      parseNixFile content = .error (couldNotFindMsg revName)) ∧
    (∀ po go vo ro pq gq vq rq pr gr vr rr,
      findAssign [ownerName] false content = some (po, go, vo, ro) →
      findAssign [repoName] false content = some (pq, gq, vq, rq) →
      validateGitHubOwner vo = .ok () → validateGitHubRepo vq = .ok () →
      findAssign [revName] false content = some (pr, gr, vr, rr) →
      findAssign [versionName] false content = none →
      parseNixFile content = .error (couldNotFindMsg versionName)) ∧
    (∀ po go vo ro pq gq vq rq pr gr vr rr pv gv vv rv,
      findAssign [ownerName] false content = some (po, go, vo, ro) →
      findAssign [repoName] false content = some (pq, gq, vq, rq) →
      validateGitHubOwner vo = .ok () → validateGitHubRepo vq = .ok () →
      findAssign [revName] false content = some (pr, gr, vr, rr) →
      findAssign [versionName] false content = some (pv, gv, vv, rv) →
      findAssign [hashName, sha256Name] false content = none →
      parseNixFile content = .error (couldNotFindMsg "hash or sha256".toList)) := by
  refine ⟨?_, ?_, ?_, ?_, ?_⟩
  · intro h
    exact parseNixFile_err_owner h
  · intro po go vo ro h1 h2
    exact parseNixFile_err_repo h1 h2
  · intro po go vo ro pq gq vq rq h1 h2 h3 h4 h5
    exact parseNixFile_err_rev h1 h2 h3 h4 h5
  · intro po go vo ro pq gq vq rq pr gr vr rr h1 h2 h3 h4 h5 h6
    exact parseNixFile_err_version h1 h2 h3 h4 h5 h6
  · intro po go vo ro pq gq vq rq pr gr vr rr pv gv vv rv h1 h2 h3 h4 h5 h6 h7
    exact parseNixFile_err_hash h1 h2 h3 h4 h5 h6 h7

/-- C5 counterexample: a text containing only a version field is returned
half-modified: the version is rewritten while the requested rev and hash
values are silently dropped, and no failure occurs. -/
theorem claim_C5_counterexample :
    updateNixFile "version = \"1.0\"; other = \"x\";".toList
      ⟨"2.0".toList, "newrev".toList, "newhash".toList⟩ {} =
      "version = \"2.0\"; other = \"x\";".toList ∧
    "version = \"2.0\"; other = \"x\";".toList ≠
      "version = \"1.0\"; other = \"x\";".toList ∧
    includesSub ("version = \"2.0\"; other = \"x\";".toList) "newrev".toList = false ∧
    includesSub ("version = \"2.0\"; other = \"x\";".toList) "newhash".toList = false := by
  exact ⟨rfl, by decide, rfl, rfl⟩

/-- C5 (amended): the updater cannot fail — each stage that finds no
assignment to rewrite leaves the text unchanged, so when no targeted field
occurs at all the input is returned verbatim. -/
theorem claim_C5_missing_fields_unchanged (t : List Char) (U : NixUpdateData)
    (opts : UpdateOptions)
    (hv : findAssign [versionName] false t = none)
    (hr : findAssign [revName] false t = none)
    (hh : findAssign [hashName] false t = none)
    (hs : findAssign [sha256Name] false t = none) :
    updateNixFile t U opts = t := by
  have hht : hashTest t = false := by
    unfold hashTest
    rw [hh]
    rfl
  simp only [updateNixFile]
  rw [replaceField_eq_of_none hv]
  by_cases hsk : opts.skipRevUpdate = some true
  · rw [if_pos hsk, hht, if_neg Bool.false_ne_true]
    exact replaceField_eq_of_none hs
  · rw [if_neg hsk, replaceField_eq_of_none hr, hht, if_neg Bool.false_ne_true]
    exact replaceField_eq_of_none hs

/-- C5 witness: a text with none of the targeted fields is returned
verbatim. -/
theorem claim_C5_witness :
    updateNixFile "nothing here".toList ⟨"a".toList, "b".toList, "c".toList⟩ {} =
      "nothing here".toList :=
  claim_C5_missing_fields_unchanged "nothing here".toList
    ⟨"a".toList, "b".toList, "c".toList⟩ {} rfl rfl rfl rfl

/-- C8: the identifier grammar — an owner is accepted iff it is 1 to 39
characters, each alphanumeric or hyphen, neither starting nor ending with a
hyphen; a repository is accepted iff it is 1 to 100 characters, each
alphanumeric, hyphen, underscore or period, not ending in `.git`; the
spec's concrete examples behave as stated. -/
theorem claim_C8_identifier_grammar :
    (∀ s : List Char, validateGitHubOwner s = .ok () ↔
      (s ≠ [] ∧ s.length ≤ 39 ∧ (∀ c ∈ s, alnumChar c = true ∨ c = '-') ∧
        s.head? ≠ some '-' ∧ s.getLast? ≠ some '-')) ∧
    (∀ s : List Char, validateGitHubRepo s = .ok () ↔
      (s ≠ [] ∧ s.length ≤ 100 ∧
        (∀ c ∈ s, alnumChar c = true ∨ c = '-' ∨ c = '_' ∨ c = '.') ∧
        ¬ ".git".toList.isSuffixOf s = true)) ∧
    validateGitHubOwner "-invalid".toList = .error (invalidOwnerMsg "-invalid".toList) ∧
    validateGitHubOwner "invalid-".toList = .error (invalidOwnerMsg "invalid-".toList) ∧
    validateGitHubOwner "user@evil".toList = .error (invalidOwnerMsg "user@evil".toList) ∧
    validateGitHubOwner "my-valid-user".toList = .ok () ∧
    validateGitHubRepo "repo.git".toList = .error (invalidRepoMsg "repo.git".toList) ∧
    validateGitHubRepo "repo/path".toList = .error (invalidRepoMsg "repo/path".toList) ∧
    validateGitHubRepo "my_repo.nix".toList = .ok () := by
  refine ⟨?_, ?_, rfl, rfl, rfl, rfl, rfl, rfl, rfl⟩
  · intro s
    exact (validateGitHubOwner_ok_iff s).trans (ownerPatternTest_iff s)
  · intro s
    rw [validateGitHubRepo_ok_iff s, repoPatternTest_iff s]
    unfold endsWithDotGit
    constructor
    · rintro ⟨⟨h1, h2⟩, h3, h4⟩
      exact ⟨h1, h4, h2, fun hc => by rw [hc] at h3; exact Bool.noConfusion h3⟩
    · rintro ⟨h1, h2, h3, h4⟩
      refine ⟨⟨h1, h3⟩, ?_, h2⟩
      cases hgit : ".git".toList.isSuffixOf s
      · rfl
      · exact absurd hgit h4

/-- C9: vendor-hash detection with comment exclusion — the parsed
`hasVendorHash` flag is the vendor-hash test of the raw text, which holds
exactly when some split of the text starts a boundary-matched
`vendorHash\s*=` assignment whose enclosing line has no `#` before it; an
assignment on an active line is detected, the same assignment behind a `#`
on its line is not, while a `#` on an earlier line does not mask it. -/
theorem claim_C9_vendor_comment_exclusion :
    (∀ (content : List Char) (d : NixFileData), parseNixFile content = .ok d →
      d.hasVendorHash = vendorHashTest content) ∧
    (∀ s : List Char, vendorHashTest s = true ↔
      ∃ p q, s = p ++ q ∧ vendorAssignAt q = true ∧ BoundaryOK false p ∧
        '#' ∉ lastLine p) ∧
    vendorHashTest "  vendorHash = lib.fakeHash;\n".toList = true ∧
    vendorHashTest "  # vendorHash = lib.fakeHash;\n".toList = false ∧
    vendorHashTest "# note\n  vendorHash = \"x\";\n".toList = true := by
  refine ⟨?_, vendorHashTest_iff, rfl, rfl, rfl⟩
  intro content d h
  exact parseNixFile_vendor h

/-- C2 (amended): frame of the update — on a text whose version, rev and
hash/sha256 fields each match uniquely, in that textual order, and for
benign new values, the update rewrites exactly the three designated quoted
values (the revision only when `skipRevUpdate` is not `true`, whose literal
is otherwise kept), and every byte outside those quoted values is preserved
in place. -/
theorem claim_C2_frame (U : NixUpdateData) (opts : UpdateOptions)
    {t pv gv vv rv pr gr vr rr pa ga va ra : List Char}
    (hUv : UniqueMatch [versionName] t pv gv vv rv)
    (hUr : UniqueMatch [revName] t pr gr vr rr)
    (hUa : UniqueMatch [hashName, sha256Name] t pa ga va ra)
    (ho1 : pv.length + gv.length + vv.length + 2 ≤ pr.length)
    (ho2 : pr.length + gr.length + vr.length + 2 ≤ pa.length)
    (hbv : Benign U.version) (hbr : Benign U.rev) (hbh : Benign U.hash) :
    ∃ B C,
      t = pv ++ gv ++ ('"' :: vv) ++
        ('"' :: (B ++ gr ++ ('"' :: vr) ++ ('"' :: (C ++ ga ++ ('"' :: va) ++ ('"' :: ra))))) ∧
      updateNixFile t U opts = pv ++ gv ++ ('"' :: U.version) ++
        ('"' :: (B ++ gr ++ ('"' :: (if opts.skipRevUpdate = some true then vr else U.rev)) ++
          ('"' :: (C ++ ga ++ ('"' :: U.hash) ++ ('"' :: ra))))) := by
  obtain ⟨B, C, h1, h2, -, -, -⟩ := update_pipeline U opts hUv hUr hUa ho1 ho2 hbv hbr hbh
  exact ⟨B, C, h1, h2⟩

/-- C2 witness: a concrete three-field file updated with `skipRevUpdate`
set: version and hash values are rewritten, the revision literal and all
surrounding bytes are kept. -/
theorem claim_C2_witness : ∃ B C,
    "version = \"1.0\";\nrev = \"abc\";\nsha256 = \"shaval\";\n".toList =
      [] ++ "version = ".toList ++ ('"' :: "1.0".toList) ++
        ('"' :: (B ++ "rev = ".toList ++ ('"' :: "abc".toList) ++
          ('"' :: (C ++ "sha256 = ".toList ++ ('"' :: "shaval".toList) ++
            ('"' :: ";\n".toList))))) ∧
    updateNixFile "version = \"1.0\";\nrev = \"abc\";\nsha256 = \"shaval\";\n".toList
      ⟨"2.0".toList, "def".toList, "newsha".toList⟩ ⟨some true⟩ =
      [] ++ "version = ".toList ++ ('"' :: "2.0".toList) ++
        ('"' :: (B ++ "rev = ".toList ++
          ('"' :: (if (UpdateOptions.mk (some true)).skipRevUpdate = some true
            then "abc".toList else "def".toList)) ++
          ('"' :: (C ++ "sha256 = ".toList ++ ('"' :: "newsha".toList) ++
            ('"' :: ";\n".toList))))) :=
  claim_C2_frame ⟨"2.0".toList, "def".toList, "newsha".toList⟩ ⟨some true⟩
    (uniqueMatch_of_positions
      (t := "version = \"1.0\";\nrev = \"abc\";\nsha256 = \"shaval\";\n".toList)
      (p := []) (g := "version = ".toList) (v := "1.0".toList)
      (r := ";\nrev = \"abc\";\nsha256 = \"shaval\";\n".toList) rfl rfl)
    (uniqueMatch_of_positions
      (p := "version = \"1.0\";\n".toList) (g := "rev = ".toList) (v := "abc".toList)
      (r := ";\nsha256 = \"shaval\";\n".toList) rfl rfl)
    (uniqueMatch_of_positions
      (p := "version = \"1.0\";\nrev = \"abc\";\n".toList) (g := "sha256 = ".toList)
      (v := "shaval".toList) (r := ";\n".toList) rfl rfl)
    (by decide) (by decide) (by decide) (by decide) (by decide)

/-- C2 counterexample: a new version value ending in a `hash = ` stub makes
the update's hash stage match across the version value's closing quote and
rewrite bytes outside any quoted value — the `sha256` assignment present in
the input is destroyed. -/
theorem claim_C2_counterexample :
    updateNixFile "version = \"v\"; sha256 = \"s\";".toList
      ⟨"x hash = ".toList, "r".toList, "h".toList⟩ {} =
      "version = \"x hash = \"h\"s\";".toList ∧
    findAssign [sha256Name] false "version = \"v\"; sha256 = \"s\";".toList =
      some ("version = \"v\"; ".toList, "sha256 = ".toList, "s".toList, ";".toList) ∧
    findAssign [sha256Name] false "version = \"x hash = \"h\"s\";".toList = none := by
  exact ⟨rfl, rfl, rfl⟩

/-- C7 counterexample: a replacement value containing a double quote makes
the update non-idempotent — the second application matches inside the value
written by the first and garbles the text further. -/
theorem claim_C7_counterexample :
    updateNixFile (updateNixFile "version = \"v\";".toList
        ⟨"x\"y".toList, "r".toList, "h".toList⟩ {})
      ⟨"x\"y".toList, "r".toList, "h".toList⟩ {} ≠
    updateNixFile "version = \"v\";".toList ⟨"x\"y".toList, "r".toList, "h".toList⟩ {} := by
  decide

/-- C7 (amended): idempotence of the update on a text whose version, rev and
hash/sha256 fields each match uniquely, in that textual order, for benign new
values: applying the same update twice equals applying it once. -/
theorem claim_C7_idempotent (U : NixUpdateData) (opts : UpdateOptions)
    {t pv gv vv rv pr gr vr rr pa ga va ra : List Char}
    (hUv : UniqueMatch [versionName] t pv gv vv rv)
    (hUr : UniqueMatch [revName] t pr gr vr rr)
    (hUa : UniqueMatch [hashName, sha256Name] t pa ga va ra)
    (ho1 : pv.length + gv.length + vv.length + 2 ≤ pr.length)
    (ho2 : pr.length + gr.length + vr.length + 2 ≤ pa.length)
    (hbv : Benign U.version) (hbr : Benign U.rev) (hbh : Benign U.hash) :
    updateNixFile (updateNixFile t U opts) U opts = updateNixFile t U opts := by
  obtain ⟨B, C, -, -, hUv', hUr', hUa'⟩ :=
    update_pipeline U opts hUv hUr hUa ho1 ho2 hbv hbr hbh
  refine update_fixed U opts hUv' hUr' hUa' ?_ hbv.2.2.1 hbr.2.2.1 hbh.2.2.1
  by_cases hsk : opts.skipRevUpdate = some true
  · exact Or.inl hsk
  · right
    rw [if_neg hsk]

/-- C7 witness: idempotence at a concrete three-field file. -/
theorem claim_C7_witness :
    updateNixFile (updateNixFile
        "version = \"1.0\";\nrev = \"abc\";\nhash = \"oldh\";\n".toList
        ⟨"3.1".toList, "ghi".toList, "newh".toList⟩ {})
      ⟨"3.1".toList, "ghi".toList, "newh".toList⟩ {} =
    updateNixFile "version = \"1.0\";\nrev = \"abc\";\nhash = \"oldh\";\n".toList
      ⟨"3.1".toList, "ghi".toList, "newh".toList⟩ {} :=
  claim_C7_idempotent ⟨"3.1".toList, "ghi".toList, "newh".toList⟩ {}
    (uniqueMatch_of_positions
      (t := "version = \"1.0\";\nrev = \"abc\";\nhash = \"oldh\";\n".toList)
      (p := []) (g := "version = ".toList) (v := "1.0".toList)
      (r := ";\nrev = \"abc\";\nhash = \"oldh\";\n".toList) rfl rfl)
    (uniqueMatch_of_positions
      (p := "version = \"1.0\";\n".toList) (g := "rev = ".toList) (v := "abc".toList)
      (r := ";\nhash = \"oldh\";\n".toList) rfl rfl)
    (uniqueMatch_of_positions
      (p := "version = \"1.0\";\nrev = \"abc\";\n".toList) (g := "hash = ".toList)
      (v := "oldh".toList) (r := ";\n".toList) rfl rfl)
    (by decide) (by decide) (by decide) (by decide) (by decide)

/-- C1 counterexample: the empty new version breaks the round trip — the
update writes `version = ""`, which the parser then reports as missing, so
no record with the new values is produced. -/
theorem claim_C1_counterexample :
    parseNixFile
      "owner = \"o\"; repo = \"r\"; version = \"1\"; rev = \"c\"; hash = \"h\";".toList =
      .ok ⟨"o".toList, "r".toList, "1".toList, "c".toList, "h".toList, false, false⟩ ∧
    parseNixFile (updateNixFile
      "owner = \"o\"; repo = \"r\"; version = \"1\"; rev = \"c\"; hash = \"h\";".toList
      ⟨[], "r2".toList, "h2".toList⟩ ⟨some false⟩) =
      .error (couldNotFindMsg versionName) := by
  exact ⟨rfl, rfl⟩

/-- C1 (amended): round trip of update through parse — on a text whose
owner, repo, version, rev and hash/sha256 fields each match uniquely, with
owner and repo before the version span and version, rev, hash in textual
order, for benign new values and valid owner/repo, parsing the updated text
returns the new version, rev and hash values and the preserved owner and
repo. -/
theorem claim_C1_round_trip (U : NixUpdateData)
    {t po go vo ro pq gq vq rq pv gv vv rv pr gr vr rr pa ga va ra : List Char}
    (hUo : UniqueMatch [ownerName] t po go vo ro)
    (hUq : UniqueMatch [repoName] t pq gq vq rq)
    (hUv : UniqueMatch [versionName] t pv gv vv rv)
    (hUr : UniqueMatch [revName] t pr gr vr rr)
    (hUa : UniqueMatch [hashName, sha256Name] t pa ga va ra)
    (hoO : po.length + go.length + vo.length + 2 ≤ pv.length)
    (hoQ : pq.length + gq.length + vq.length + 2 ≤ pv.length)
    (ho1 : pv.length + gv.length + vv.length + 2 ≤ pr.length)
    (ho2 : pr.length + gr.length + vr.length + 2 ≤ pa.length)
    (hbv : Benign U.version) (hbr : Benign U.rev) (hbh : Benign U.hash)
    (hvo : validateGitHubOwner vo = .ok ())
    (hvq : validateGitHubRepo vq = .ok ()) :
    parseNixFile (updateNixFile t U ⟨some false⟩) =
      .ok ⟨vo, vq, U.version, U.rev, U.hash,
        includesSub U.rev "${version}".toList,
        vendorHashTest (updateNixFile t U ⟨some false⟩)⟩ := by
  obtain ⟨B, C, ht, hout, hUv', hUr', hUa'⟩ :=
    update_pipeline U ⟨some false⟩ hUv hUr hUa ho1 ho2 hbv hbr hbh
  have hskne : ¬ (UpdateOptions.mk (some false)).skipRevUpdate = some true := by decide
  simp only [if_neg hskne] at hout hUv' hUr' hUa'
  obtain ⟨Do, hfo⟩ := passenger_preserved namesOK_fields.1 (namesSep_single _)
    (by intro n hn; fin_cases hn <;> simp [fieldNames]) U hUo hoO
    hUv.1.2.2.1 hUv.1.2.2.2.1 hUr.1.2.2.1 hUr.1.2.2.2.1 hUa.1.2.2.1 hUa.1.2.2.2.1
    hbv hbr hbh (Or.inr rfl) ht hout
  obtain ⟨Dq, hfq⟩ := passenger_preserved namesOK_fields.2.1 (namesSep_single _)
    (by intro n hn; fin_cases hn <;> simp [fieldNames]) U hUq hoQ
    hUv.1.2.2.1 hUv.1.2.2.2.1 hUr.1.2.2.1 hUr.1.2.2.2.1 hUa.1.2.2.1 hUa.1.2.2.2.1
    hbv hbr hbh (Or.inr rfl) ht hout
  exact parseNixFile_eq_ok hfo hfq hvo hvq
    (findAssign_of_uniqueMatch (namesSep_single _) hUr')
    (findAssign_of_uniqueMatch (namesSep_single _) hUv')
    (findAssign_of_uniqueMatch namesSep_alias hUa')

/-- C1 witness: a concrete five-field file round-trips through update and
parse with the new version, rev and hash values. -/
theorem claim_C1_witness :
    parseNixFile (updateNixFile
      "owner = \"ow\"; repo = \"rp\"; version = \"1.0\"; rev = \"aa\"; hash = \"hh\";".toList
      ⟨"2.0".toList, "bb".toList, "zz".toList⟩ ⟨some false⟩) =
      .ok ⟨"ow".toList, "rp".toList, "2.0".toList, "bb".toList, "zz".toList,
        false, false⟩ :=
  claim_C1_round_trip ⟨"2.0".toList, "bb".toList, "zz".toList⟩
    (uniqueMatch_of_positions
      (t := "owner = \"ow\"; repo = \"rp\"; version = \"1.0\"; rev = \"aa\"; hash = \"hh\";".toList)
      (p := []) (g := "owner = ".toList) (v := "ow".toList)
      (r := "; repo = \"rp\"; version = \"1.0\"; rev = \"aa\"; hash = \"hh\";".toList) rfl rfl)
    (uniqueMatch_of_positions
      (p := "owner = \"ow\"; ".toList) (g := "repo = ".toList) (v := "rp".toList)
      (r := "; version = \"1.0\"; rev = \"aa\"; hash = \"hh\";".toList) rfl rfl)
    (uniqueMatch_of_positions
      (p := "owner = \"ow\"; repo = \"rp\"; ".toList) (g := "version = ".toList)
      (v := "1.0".toList) (r := "; rev = \"aa\"; hash = \"hh\";".toList) rfl rfl)
    (uniqueMatch_of_positions
      (p := "owner = \"ow\"; repo = \"rp\"; version = \"1.0\"; ".toList) (g := "rev = ".toList)
      (v := "aa".toList) (r := "; hash = \"hh\";".toList) rfl rfl)
    (uniqueMatch_of_positions
      (p := "owner = \"ow\"; repo = \"rp\"; version = \"1.0\"; rev = \"aa\"; ".toList)
      (g := "hash = ".toList) (v := "hh".toList) (r := ";".toList) rfl rfl)
    (by decide) (by decide) (by decide) (by decide)
    (by decide) (by decide) (by decide) rfl rfl

end NixUpdater
